import Mathlib

/-!
# Terrain: a displaced sphere and its ray intersection

A shallow embedding of `src/shapes/terrain.h` over the real numbers.  The
C++ `float` arithmetic is read as exact real arithmetic, `std::sin`,
`std::cos`, `std::acos`, `std::atan2` and `std::abs` as the corresponding
real functions and `M_PI` as `Real.pi`.  The two `for` loops of
`Terrain::intersect` become recursive functions on the number of iterations
that are left.

One property depends on the rounding itself: whether the longitude coordinate
of `approxUV` stays below 1.  For it, lines 41 and 43 of the source are also
embedded with IEEE 754 rounding to `float` and `double` (`approxUVFloatU`).
-/

namespace Atmos

/-! ## Vector algebra (`vec2.h`, `vec3.h`) -/

/-- Modelled from the spec: `vec2.h` is not among the sources.  A 2D value type
with elementwise arithmetic. -/
@[ext]
structure Vec2 where
  x : ℝ
  y : ℝ

/-- Modelled from the spec: `vec3.h` is not among the sources.  A 3D value type
with elementwise arithmetic, length and normalization. -/
@[ext]
structure Vec3 where
  x : ℝ
  y : ℝ
  z : ℝ

namespace Vec2

instance : Add Vec2 := ⟨fun a b => ⟨a.x + b.x, a.y + b.y⟩⟩

instance : Sub Vec2 := ⟨fun a b => ⟨a.x - b.x, a.y - b.y⟩⟩

end Vec2

namespace Vec3

instance : Add Vec3 := ⟨fun a b => ⟨a.x + b.x, a.y + b.y, a.z + b.z⟩⟩

instance : Sub Vec3 := ⟨fun a b => ⟨a.x - b.x, a.y - b.y, a.z - b.z⟩⟩

instance : HMul ℝ Vec3 Vec3 := ⟨fun k a => ⟨k * a.x, k * a.y, k * a.z⟩⟩

noncomputable instance : HDiv Vec3 ℝ Vec3 := ⟨fun a k => ⟨a.x / k, a.y / k, a.z / k⟩⟩

/-- Modelled from the spec: the Euclidean length of a vector. -/
noncomputable def length (a : Vec3) : ℝ := Real.sqrt (a.x * a.x + a.y * a.y + a.z * a.z)

end Vec3

/-- Modelled from the spec: `normalize v` divides `v` by its length.  At the zero
vector the real division of this model returns the zero vector, where the C++
code produces NaN; the claims below are stated for points other than the sphere
centre. -/
noncomputable def normalize (a : Vec3) : Vec3 := a / a.length

/-- The C library function `atan2 y x` over the reals: the angle in `(-π, π]` of
the point `(x, y)`, and `0` at the origin. -/
noncomputable def atan2 (y x : ℝ) : ℝ := Complex.arg ⟨x, y⟩

/-! ## Rays, hit records and the base sphere -/

/-- Modelled from the spec: a ray is an origin and a direction. -/
structure Ray where
  origin : Vec3
  direction : Vec3

/-- Modelled from the spec: `ray(t)` is `origin + t * direction`. -/
def Ray.eval (ray : Ray) (t : ℝ) : Vec3 := ray.origin + t * ray.direction

/-- Modelled from the spec: the result record of an intersection query. -/
structure Hit where
  t : ℝ
  hitPos : Vec3
  u : ℝ
  v : ℝ
  hitNormal : Vec3
  iteration : Int

/-- Modelled from the spec: the base sphere, a centre and a radius.  Its analytic
ray test `Sphere::intersect` is not among the sources and is a parameter of
`Terrain.intersect` below. -/
structure Sphere where
  center : Vec3
  radius : ℝ

/-- The type of the collaborator `Sphere::intersect(ray, res)`: it returns a
flag and the hit record as it leaves it. -/
abbrev SphereTest := Ray → Hit → Bool × Hit

/-- The class `Terrain`: its only member is the base sphere. -/
structure Terrain where
  sphere : Sphere

namespace Terrain

/-- The displacement field `Terrain::heightMap`. -/
noncomputable def heightMap (u : Vec2) : ℝ :=
  20 * (Real.sin (100 * u.x) * Real.sin (100 * u.y) + 1)

/-- The parameterization `Terrain::approxUV` in exact real arithmetic.  The source
stores `phi`, `theta`, `u` and `v` in `float`; the rounding of lines 41 and 43,
which decides whether `u` stays below 1, is in `approxUVFloatU` below, and no
statement about this definition asserts `u < 1`. -/
noncomputable def approxUV (T : Terrain) (p : Vec3) : Vec2 :=
  let dir := normalize (p - T.sphere.center)
  let phi := atan2 dir.z dir.x
  let phi := if phi < 0 then phi + 2 * Real.pi else phi
  let theta := Real.arccos dir.y
  let u := phi / (2 * Real.pi)
  let v := theta / Real.pi
  ⟨u, v⟩

/-- The point `(px, py, pz)` that `Terrain::heightMapNormal` rebuilds from the
parametric coordinate `u`. -/
noncomputable def paramPoint (T : Terrain) (u : Vec2) : Vec3 :=
  let phi := 2 * Real.pi * u.x
  let theta := Real.pi * u.y
  let px := T.sphere.radius * Real.cos phi * Real.sin theta
  let py := T.sphere.radius * Real.cos theta
  let pz := T.sphere.radius * Real.sin phi * Real.sin theta
  ⟨px, py, pz⟩

/-- The local `dpdu` of `Terrain::heightMapNormal`. -/
noncomputable def dpdu (T : Terrain) (u : Vec2) : Vec3 :=
  let q := T.paramPoint u
  normalize ⟨-2 * Real.pi * q.z, 0, 2 * Real.pi * q.x⟩

/-- The local `dpdv` of `Terrain::heightMapNormal`. -/
noncomputable def dpdv (T : Terrain) (u : Vec2) : Vec3 :=
  let phi := 2 * Real.pi * u.x
  let theta := Real.pi * u.y
  let q := T.paramPoint u
  normalize (Real.pi * (⟨q.z * Real.cos phi, -T.sphere.radius * Real.sin theta,
    q.z * Real.sin phi⟩ : Vec3))

/-- The normal estimate `Terrain::heightMapNormal`.  The locals `dpdu` and `dpdv`
are computed by the source and do not enter the returned value. -/
noncomputable def heightMapNormal (T : Terrain) (p : Vec3) : Vec3 :=
  let n := normalize (p - T.sphere.center)
  let u := T.approxUV p
  let _dpdu := T.dpdu u
  let _dpdv := T.dpdv u
  let du := heightMap (u + ⟨0.001, 0⟩) - heightMap (u - ⟨0.001, 0⟩)
  let dv := heightMap (u + ⟨0, 0.001⟩) - heightMap (u - ⟨0, 0.001⟩)
  normalize (du * (⟨1, 0, 0⟩ : Vec3) + dv * (⟨0, 0, 1⟩ : Vec3) + n)

/-- The pseudo-distance `Terrain::terrainDist`. -/
noncomputable def terrainDist (T : Terrain) (p : Vec3) : ℝ :=
  let uv := T.approxUV p
  let sphereDist := (p - T.sphere.center).length - T.sphere.radius
  sphereDist - heightMap uv

/-- The hit record after the assignments of an accepted hit at `p` with
parameter `t` (lines 69-74 and 99-104 of the source). -/
noncomputable def accept (T : Terrain) (res : Hit) (t : ℝ) (p : Vec3) : Hit :=
  let uv := T.approxUV p
  { res with t := t, hitPos := p, u := uv.x, v := uv.y, hitNormal := T.heightMapNormal p }

/-- The bisection loop of `Terrain::intersect` with `n` iterations left. -/
noncomputable def bisect (T : Terrain) (ray : Ray) (res : Hit) : Nat → Vec3 → Vec3 → Bool × Hit
  | 0, _, _ => (false, res)
  | n + 1, startPoint, endPoint =>
    let midPoint := (startPoint + endPoint) / (2 : ℝ)
    let tdist := T.terrainDist midPoint
    if |tdist| < 0.1 then
      (true, T.accept res (midPoint - ray.origin).length midPoint)
    else if tdist > 0 then
      bisect T ray res n midPoint endPoint
    else
      bisect T ray res n startPoint midPoint

/-- The marching loop of `Terrain::intersect` with `n` iterations left, at
parameter `t` and point `p`. -/
noncomputable def march (T : Terrain) (ray : Ray) : Nat → ℝ → Vec3 → Hit → Bool × Hit
  | 0, _, _, res => (false, res)
  | n + 1, t, p, res =>
    let dist := T.terrainDist p
    let res := { res with iteration := res.iteration + 1 }
    if |dist| < 0.1 then
      (true, T.accept res t p)
    else
      march T ray n (t + dist) (ray.eval (t + dist)) res

/-- The query `Terrain::intersect`, with the base sphere's analytic test as a parameter. -/
noncomputable def intersect (T : Terrain) (sphereIntersect : SphereTest) (ray : Ray)
    (res : Hit) : Bool × Hit :=
  match sphereIntersect ray res with
  | (true, res) => T.bisect ray res 100 ray.origin res.hitPos
  | (false, res) => T.march ray 100 0 (ray.eval 0) { res with iteration := 0 }

/-- The marching parameters `t_0 = 0`, `t_(i+1) = t_i + terrainDist (ray t_i)`. -/
noncomputable def marchT (T : Terrain) (ray : Ray) : Nat → ℝ
  | 0 => 0
  | i + 1 => marchT T ray i + T.terrainDist (ray.eval (marchT T ray i))

/-- The marching points `p_i = ray(t_i)`. -/
noncomputable def marchP (T : Terrain) (ray : Ray) (i : Nat) : Vec3 := ray.eval (T.marchT ray i)

/-- The pseudo-distances `d_i = terrainDist p_i` met while marching. -/
noncomputable def marchD (T : Terrain) (ray : Ray) (i : Nat) : ℝ := T.terrainDist (T.marchP ray i)

/-! ## Concrete scenes -/

/-- The terrain on the sphere of radius `r` about the origin. -/
def atOrigin (r : ℝ) : Terrain := ⟨⟨⟨0, 0, 0⟩, r⟩⟩

/-- A hit record with every field zero. -/
def blankHit : Hit := ⟨0, ⟨0, 0, 0⟩, 0, 0, ⟨0, 0, 0⟩, 0⟩

/-- A sphere test that reports a miss and leaves the record as it is. -/
def sphereMiss : SphereTest := fun _ res => (false, res)

/-- A sphere test that reports a hit at parameter `t` and position `p`. -/
def sphereHitAt (t : ℝ) (p : Vec3) : SphereTest :=
  fun _ res => (true, { res with t := t, hitPos := p })

/-- The ray from `(0, 50, 0)` straight down to the origin. -/
def rayDown : Ray := ⟨⟨0, 50, 0⟩, ⟨0, -1, 0⟩⟩

/-- The ray from `(0, 20, 0)` straight up, away from the origin. -/
def rayUp : Ray := ⟨⟨0, 20, 0⟩, ⟨0, 1, 0⟩⟩

/-- The ray from `(1000, 1000, 1000)` in the direction `(0, 1, 0)`, away from the
origin. -/
def rayFar : Ray := ⟨⟨1000, 1000, 1000⟩, ⟨0, 1, 0⟩⟩

/-- The ray from `(3020, -3020, 0)` in the direction `(0, 1, 0)`: it runs along
the line `x = 3020`, `z = 0`, outside the sphere of radius 3000 about the
origin. -/
def rayGraze : Ray := ⟨⟨3020, -3020, 0⟩, ⟨0, 1, 0⟩⟩

/-- The ray of the scenario: from `(0, 0, -50)` in the direction `(0, 0, 1)`. -/
def rayZ : Ray := ⟨⟨0, 0, -50⟩, ⟨0, 0, 1⟩⟩

/-- The normal estimate as the specification words it, for comparison with
`heightMapNormal`: the weights are the central differences of `heightMap` with
step 0.001, divided by twice the step. -/
noncomputable def heightMapNormalCentral (T : Terrain) (p : Vec3) : Vec3 :=
  let n := normalize (p - T.sphere.center)
  let u := T.approxUV p
  let du := (heightMap ⟨u.x + 0.001, u.y⟩ - heightMap ⟨u.x - 0.001, u.y⟩) / (2 * 0.001)
  let dv := (heightMap ⟨u.x, u.y + 0.001⟩ - heightMap ⟨u.x, u.y - 0.001⟩) / (2 * 0.001)
  normalize (du * (⟨1, 0, 0⟩ : Vec3) + dv * (⟨0, 0, 1⟩ : Vec3) + n)

/-- Rounding of a real number to the nearest integer, a tie going to the even
one. -/
noncomputable def roundHalfEven (r : ℝ) : ℤ :=
  if r - ⌊r⌋ < 1 / 2 then ⌊r⌋
  else if 1 / 2 < r - ⌊r⌋ then ⌊r⌋ + 1
  else if Even ⌊r⌋ then ⌊r⌋ else ⌊r⌋ + 1

/-- Rounding of a real number to the nearest binary floating-point number with
`prec` significant bits, a tie going to the even significand (the IEEE 754
default), for values in the normal range: with `2 ^ e ≤ |x| < 2 ^ (e + 1)` the
result is the multiple of `2 ^ (e - (prec - 1))` nearest to `x`. -/
noncomputable def roundBinary (prec : ℕ) (x : ℝ) : ℝ :=
  if x = 0 then 0
  else (roundHalfEven (x / (2 : ℝ) ^ (Int.log 2 |x| - ((prec : ℤ) - 1))) : ℝ) *
    (2 : ℝ) ^ (Int.log 2 |x| - ((prec : ℤ) - 1))

/-- Conversion to `float` (24 significant bits). -/
noncomputable def toFloat (x : ℝ) : ℝ := roundBinary 24 x

/-- Conversion to `double` (53 significant bits). -/
noncomputable def toDouble (x : ℝ) : ℝ := roundBinary 53 x

/-- The `double` constant `M_PI` of `<cmath>`, 3.141592653589793115997963... -/
noncomputable def M_PI : ℝ := 884279719003555 / 2 ^ 48

/-- Lines 41 and 43 of `Terrain::approxUV` as the machine runs them, from the
`float` value `phi` that line 40 stores: `phi += 2*M_PI` adds in `double` and
narrows the sum to `float`, and `float u = phi/(2*M_PI)` divides in `double`
and narrows the quotient to `float`. -/
noncomputable def approxUVFloatU (phi : ℝ) : ℝ :=
  let phi := if phi < 0 then toFloat (toDouble (phi + 2 * M_PI)) else phi
  toFloat (toDouble (phi / (2 * M_PI)))

end Terrain

/-! ## Componentwise arithmetic -/

namespace Vec3

@[simp] theorem add_x (a b : Vec3) : (a + b).x = a.x + b.x := rfl

@[simp] theorem add_y (a b : Vec3) : (a + b).y = a.y + b.y := rfl

@[simp] theorem add_z (a b : Vec3) : (a + b).z = a.z + b.z := rfl

@[simp] theorem sub_x (a b : Vec3) : (a - b).x = a.x - b.x := rfl

@[simp] theorem sub_y (a b : Vec3) : (a - b).y = a.y - b.y := rfl

@[simp] theorem sub_z (a b : Vec3) : (a - b).z = a.z - b.z := rfl

@[simp] theorem smul_x (k : ℝ) (a : Vec3) : (k * a).x = k * a.x := rfl

@[simp] theorem smul_y (k : ℝ) (a : Vec3) : (k * a).y = k * a.y := rfl

@[simp] theorem smul_z (k : ℝ) (a : Vec3) : (k * a).z = k * a.z := rfl

@[simp] theorem div_x (a : Vec3) (k : ℝ) : (a / k).x = a.x / k := rfl

@[simp] theorem div_y (a : Vec3) (k : ℝ) : (a / k).y = a.y / k := rfl

@[simp] theorem div_z (a : Vec3) (k : ℝ) : (a / k).z = a.z / k := rfl

theorem length_nonneg (a : Vec3) : 0 ≤ a.length := Real.sqrt_nonneg _

theorem length_sq (a : Vec3) : a.length ^ 2 = a.x * a.x + a.y * a.y + a.z * a.z := by
  unfold length
  rw [Real.sq_sqrt]
  nlinarith [mul_self_nonneg a.x, mul_self_nonneg a.y, mul_self_nonneg a.z]

theorem length_eq_zero_iff (a : Vec3) : a.length = 0 ↔ a = ⟨0, 0, 0⟩ := by
  constructor
  · intro h
    have h2 := length_sq a
    rw [h] at h2
    have hx : a.x = 0 := by nlinarith [mul_self_nonneg a.x, mul_self_nonneg a.y, mul_self_nonneg a.z]
    have hy : a.y = 0 := by nlinarith [mul_self_nonneg a.x, mul_self_nonneg a.y, mul_self_nonneg a.z]
    have hz : a.z = 0 := by nlinarith [mul_self_nonneg a.x, mul_self_nonneg a.y, mul_self_nonneg a.z]
    ext <;> assumption
  · rintro rfl
    simp [length]

theorem sub_eq_zero_iff (a b : Vec3) : a - b = ⟨0, 0, 0⟩ ↔ a = b := by
  constructor
  · intro h
    have hx := congrArg Vec3.x h
    have hy := congrArg Vec3.y h
    have hz := congrArg Vec3.z h
    simp only [sub_x, sub_y, sub_z] at hx hy hz
    ext <;> linarith
  · rintro rfl
    ext <;> simp

theorem length_pos_of_ne {a b : Vec3} (h : a ≠ b) : 0 < (a - b).length := by
  rcases (length_nonneg (a - b)).lt_or_eq with h1 | h1
  · exact h1
  · exact absurd ((sub_eq_zero_iff a b).1 ((length_eq_zero_iff _).1 h1.symm)) h

end Vec3

namespace Vec2

@[simp] theorem add2_x (a b : Vec2) : (a + b).x = a.x + b.x := rfl

@[simp] theorem add2_y (a b : Vec2) : (a + b).y = a.y + b.y := rfl

@[simp] theorem sub2_x (a b : Vec2) : (a - b).x = a.x - b.x := rfl

@[simp] theorem sub2_y (a b : Vec2) : (a - b).y = a.y - b.y := rfl

end Vec2

theorem length_normalize {a : Vec3} (h : 0 < a.length) : (normalize a).length = 1 := by
  have h2 := Vec3.length_sq a
  have h1 : (normalize a).length ^ 2 = 1 := by
    rw [Vec3.length_sq]
    simp only [normalize, Vec3.div_x, Vec3.div_y, Vec3.div_z]
    field_simp
    nlinarith
  have h0 := Vec3.length_nonneg (normalize a)
  nlinarith

namespace Terrain

/-! ## The two loops -/

theorem accept_hitPos (T : Terrain) (res : Hit) (t : ℝ) (p : Vec3) :
    (T.accept res t p).hitPos = p := rfl

theorem accept_t (T : Terrain) (res : Hit) (t : ℝ) (p : Vec3) : (T.accept res t p).t = t := rfl

theorem accept_iteration (T : Terrain) (res : Hit) (t : ℝ) (p : Vec3) :
    (T.accept res t p).iteration = res.iteration := rfl

theorem accept_hitNormal (T : Terrain) (res : Hit) (t : ℝ) (p : Vec3) :
    (T.accept res t p).hitNormal = T.heightMapNormal p := rfl

/-- A successful bisection returns `accept` at a point within the tolerance, with
the distance from the ray origin as parameter. -/
theorem bisect_true (T : Terrain) (ray : Ray) (res : Hit) (n : Nat) :
    ∀ s e : Vec3, (T.bisect ray res n s e).1 = true →
      ∃ p : Vec3, |T.terrainDist p| < 0.1 ∧
        (T.bisect ray res n s e).2 = T.accept res (p - ray.origin).length p := by
  induction n with
  | zero => intro s e h; simp [bisect] at h
  | succ n ih =>
    intro s e h
    simp only [bisect] at h ⊢
    split_ifs at h ⊢ with h1 h2
    · exact ⟨_, h1, rfl⟩
    · exact ih _ _ h
    · exact ih _ _ h

theorem bisect_accept (T : Terrain) (ray : Ray) (res : Hit) (n : Nat) (s e : Vec3)
    (h : |T.terrainDist ((s + e) / (2 : ℝ))| < 0.1) :
    T.bisect ray res (n + 1) s e =
      (true, T.accept res (((s + e) / (2 : ℝ)) - ray.origin).length ((s + e) / (2 : ℝ))) := by
  simp only [bisect, if_pos h]

theorem bisect_outside (T : Terrain) (ray : Ray) (res : Hit) (n : Nat) (s e : Vec3)
    (h : ¬ |T.terrainDist ((s + e) / (2 : ℝ))| < 0.1)
    (h2 : T.terrainDist ((s + e) / (2 : ℝ)) > 0) :
    T.bisect ray res (n + 1) s e = T.bisect ray res n ((s + e) / (2 : ℝ)) e := by
  simp only [bisect, if_neg h, if_pos h2]

theorem bisect_inside (T : Terrain) (ray : Ray) (res : Hit) (n : Nat) (s e : Vec3)
    (h : ¬ |T.terrainDist ((s + e) / (2 : ℝ))| < 0.1)
    (h2 : ¬ T.terrainDist ((s + e) / (2 : ℝ)) > 0) :
    T.bisect ray res (n + 1) s e = T.bisect ray res n s ((s + e) / (2 : ℝ)) := by
  simp only [bisect, if_neg h, if_neg h2]

/-- The marching loop, started at the `j`-th marching point with `n` iterations
left, when none of the next `n` points is within the tolerance. -/
theorem march_none (T : Terrain) (ray : Ray) (n : Nat) :
    ∀ (j : Nat) (res : Hit), (∀ i, i < n → ¬ |T.marchD ray (j + i)| < 0.1) →
      T.march ray n (T.marchT ray j) (T.marchP ray j) res =
        (false, { res with iteration := res.iteration + n }) := by
  induction n with
  | zero => intro j res _; simp [march]
  | succ n ih =>
    intro j res h
    have h0 : ¬ |T.terrainDist (T.marchP ray j)| < 0.1 := by simpa [marchD] using h 0 (by omega)
    have hstep := ih (j + 1) { res with iteration := res.iteration + 1 }
      (fun i hi => by simpa [Nat.add_assoc, Nat.add_comm 1 i] using h (i + 1) (by omega))
    simp only [march, if_neg h0]
    simp only [marchT, marchP] at hstep ⊢
    rw [hstep]
    simp only [Nat.cast_add, Nat.cast_one, Prod.mk.injEq, true_and]
    congr 1
    ring

/-- The marching loop, started at the `j`-th marching point with `n` iterations
left, when the `k`-th next point is the first one within the tolerance. -/
theorem march_first (T : Terrain) (ray : Ray) (n : Nat) :
    ∀ (j k : Nat) (res : Hit), k < n → |T.marchD ray (j + k)| < 0.1 →
      (∀ i, i < k → ¬ |T.marchD ray (j + i)| < 0.1) →
      T.march ray n (T.marchT ray j) (T.marchP ray j) res =
        (true, T.accept { res with iteration := res.iteration + (k + 1) }
          (T.marchT ray (j + k)) (T.marchP ray (j + k))) := by
  induction n with
  | zero => intro j k res hk; omega
  | succ n ih =>
    intro j k res hk hhit hbefore
    cases k with
    | zero =>
      have h0 : |T.terrainDist (T.marchP ray j)| < 0.1 := by simpa [marchD] using hhit
      simp only [march, if_pos h0]
      simp
    | succ k =>
      have h0 : ¬ |T.terrainDist (T.marchP ray j)| < 0.1 := by
        simpa [marchD] using hbefore 0 (by omega)
      have hstep := ih (j + 1) k { res with iteration := res.iteration + 1 } (by omega)
        (by simpa [Nat.add_assoc, Nat.add_comm 1 k] using hhit)
        (fun i hi => by simpa [Nat.add_assoc, Nat.add_comm 1 i] using hbefore (i + 1) (by omega))
      simp only [march, if_neg h0]
      simp only [marchT, marchP] at hstep ⊢
      rw [hstep]
      simp only [Nat.cast_add, Nat.cast_one, Prod.mk.injEq, true_and]
      have e1 : j + 1 + k = j + (k + 1) := by omega
      rw [e1]
      congr 2
      ring

theorem intersect_of_miss (T : Terrain) (sphereIntersect : SphereTest) (ray : Ray) (res : Hit)
    (hmiss : (sphereIntersect ray res).1 = false) :
    T.intersect sphereIntersect ray res =
      T.march ray 100 (T.marchT ray 0) (T.marchP ray 0)
        { (sphereIntersect ray res).2 with iteration := 0 } := by
  unfold intersect
  rcases hsp : sphereIntersect ray res with ⟨b, r⟩
  rw [hsp] at hmiss
  simp only at hmiss
  subst hmiss
  simp [marchT, marchP]

theorem intersect_of_hit (T : Terrain) (sphereIntersect : SphereTest) (ray : Ray) (res : Hit)
    (hhit : (sphereIntersect ray res).1 = true) :
    T.intersect sphereIntersect ray res =
      T.bisect ray (sphereIntersect ray res).2 100 ray.origin (sphereIntersect ray res).2.hitPos := by
  unfold intersect
  rcases hsp : sphereIntersect ray res with ⟨b, r⟩
  rw [hsp] at hhit
  simp only at hhit
  subst hhit
  rfl

/-- The marching loop either stops at the first point within the tolerance or
runs through all its iterations. -/
theorem march_cases (T : Terrain) (ray : Ray) (n j : Nat) (res : Hit) :
    (∃ k, k < n ∧ |T.marchD ray (j + k)| < 0.1 ∧ (∀ i, i < k → ¬ |T.marchD ray (j + i)| < 0.1) ∧
        T.march ray n (T.marchT ray j) (T.marchP ray j) res =
          (true, T.accept { res with iteration := res.iteration + (k + 1) }
            (T.marchT ray (j + k)) (T.marchP ray (j + k)))) ∨
      ((∀ i, i < n → ¬ |T.marchD ray (j + i)| < 0.1) ∧
        T.march ray n (T.marchT ray j) (T.marchP ray j) res =
          (false, { res with iteration := res.iteration + n })) := by
  classical
  by_cases h : ∃ i, i < n ∧ |T.marchD ray (j + i)| < 0.1
  · left
    have hk := Nat.find_spec h
    have hmin : ∀ i, i < Nat.find h → ¬ |T.marchD ray (j + i)| < 0.1 := by
      intro i hi hd
      exact Nat.find_min h hi ⟨by omega, hd⟩
    exact ⟨Nat.find h, hk.1, hk.2, hmin, T.march_first ray n j _ res hk.1 hk.2 hmin⟩
  · right
    have hn : ∀ i, i < n → ¬ |T.marchD ray (j + i)| < 0.1 := fun i hi hd => h ⟨i, hi, hd⟩
    exact ⟨hn, T.march_none ray n j res hn⟩

/-! ## The pseudo-distance on the vertical axis through the origin -/

theorem approxUV_yAxis_x (r y : ℝ) : ((atOrigin r).approxUV ⟨0, y, 0⟩).x = 0 := by
  have h0 : (⟨0, 0⟩ : ℂ) = 0 := rfl
  simp [approxUV, atOrigin, normalize, atan2, h0]

theorem heightMap_of_x_eq_zero (u : Vec2) (h : u.x = 0) : heightMap u = 20 := by
  simp [heightMap, h]

theorem length_yAxis (y : ℝ) : (⟨0, y, 0⟩ : Vec3).length = |y| := by
  simp [Vec3.length, Real.sqrt_mul_self_eq_abs]

theorem terrainDist_yAxis (r y : ℝ) : (atOrigin r).terrainDist ⟨0, y, 0⟩ = |y| - r - 20 := by
  have h1 : (⟨0, y, 0⟩ : Vec3) - (atOrigin r).sphere.center = ⟨0, y, 0⟩ := by
    ext <;> simp [atOrigin]
  simp only [terrainDist, h1, length_yAxis,
    heightMap_of_x_eq_zero _ (approxUV_yAxis_x r y)]
  rfl

/-! ## Claims on the displacement field and the pseudo-distance -/

theorem heightMap_nonneg (u : Vec2) : 0 ≤ heightMap u := by
  have h1 := Real.sin_le_one (100 * u.x)
  have h2 := Real.neg_one_le_sin (100 * u.x)
  have h3 := Real.sin_le_one (100 * u.y)
  have h4 := Real.neg_one_le_sin (100 * u.y)
  unfold heightMap
  nlinarith

theorem heightMap_le (u : Vec2) : heightMap u ≤ 40 := by
  have h1 := Real.sin_le_one (100 * u.x)
  have h2 := Real.neg_one_le_sin (100 * u.x)
  have h3 := Real.sin_le_one (100 * u.y)
  have h4 := Real.neg_one_le_sin (100 * u.y)
  unfold heightMap
  nlinarith

/-- C10: for every real `(u, v)` the displacement `heightMap (u, v)` lies between
0 and 40, and the value 0 is attained. -/
theorem heightMap_bounds :
    (∀ u : Vec2, 0 ≤ heightMap u ∧ heightMap u ≤ 40) ∧ ∃ u : Vec2, heightMap u = 0 := by
  constructor
  · exact fun u => ⟨heightMap_nonneg u, heightMap_le u⟩
  · refine ⟨⟨Real.pi / 200, -(Real.pi / 200)⟩, ?_⟩
    have e1 : 100 * (Real.pi / 200) = Real.pi / 2 := by ring
    have e2 : 100 * -(Real.pi / 200) = -(Real.pi / 2) := by ring
    simp only [heightMap, e1, e2, Real.sin_neg, Real.sin_pi_div_two]
    norm_num

/-- C9: away from the sphere centre, `terrainDist p` is the radial distance to the
base sphere minus the displacement sampled at `approxUV p`; it is positive
exactly outside the displaced surface, negative exactly inside and zero exactly
on it. -/
theorem terrainDist_sign (T : Terrain) (p : Vec3) (_hp : p ≠ T.sphere.center) :
    T.terrainDist p =
        ((p - T.sphere.center).length - T.sphere.radius) - heightMap (T.approxUV p) ∧
      (0 < T.terrainDist p ↔
        T.sphere.radius + heightMap (T.approxUV p) < (p - T.sphere.center).length) ∧
      (T.terrainDist p < 0 ↔
        (p - T.sphere.center).length < T.sphere.radius + heightMap (T.approxUV p)) ∧
      (T.terrainDist p = 0 ↔
        (p - T.sphere.center).length = T.sphere.radius + heightMap (T.approxUV p)) := by
  have h : T.terrainDist p =
      ((p - T.sphere.center).length - T.sphere.radius) - heightMap (T.approxUV p) := rfl
  refine ⟨h, ?_, ?_, ?_⟩ <;> rw [h] <;> constructor <;> intro h1 <;> linarith

/-- Witness of C9 at the point `(0, 30, 0)` of the terrain of radius 10. -/
theorem terrainDist_sign_witness :
    (⟨0, 30, 0⟩ : Vec3) ≠ (atOrigin 10).sphere.center ∧
      ((atOrigin 10).terrainDist ⟨0, 30, 0⟩ = 0 ↔
        ((⟨0, 30, 0⟩ : Vec3) - (atOrigin 10).sphere.center).length =
          (atOrigin 10).sphere.radius + heightMap ((atOrigin 10).approxUV ⟨0, 30, 0⟩)) :=
  have h : (⟨0, 30, 0⟩ : Vec3) ≠ (atOrigin 10).sphere.center := by
    intro h
    have := congrArg Vec3.y h
    simp [atOrigin] at this
  ⟨h, (terrainDist_sign (atOrigin 10) ⟨0, 30, 0⟩ h).2.2.2⟩

/-! ## Claims on the outcome of `intersect` -/

/-- C1: whenever `intersect` returns true, on either path, the pseudo-distance
re-evaluated at the returned hit position is within the tolerance 0.1. -/
theorem intersect_hit_tolerance (T : Terrain) (sphereIntersect : SphereTest) (ray : Ray)
    (res : Hit) (h : (T.intersect sphereIntersect ray res).1 = true) :
    |T.terrainDist (T.intersect sphereIntersect ray res).2.hitPos| < 0.1 := by
  cases hsp : (sphereIntersect ray res).1 with
  | true =>
    rw [T.intersect_of_hit sphereIntersect ray res hsp] at h ⊢
    obtain ⟨p, hp, he⟩ := T.bisect_true ray _ _ _ _ h
    rw [he, accept_hitPos]
    exact hp
  | false =>
    rw [T.intersect_of_miss sphereIntersect ray res hsp] at h ⊢
    rcases T.march_cases ray 100 0 { (sphereIntersect ray res).2 with iteration := 0 } with
      ⟨k, _, hd, _, he⟩ | ⟨_, he⟩
    · rw [he, accept_hitPos]
      exact hd
    · rw [he] at h
      simp at h

theorem bisect_rayDown :
    (atOrigin 10).intersect (sphereHitAt 40 ⟨0, 10, 0⟩) rayDown blankHit =
      (true, (atOrigin 10).accept { blankHit with t := 40, hitPos := ⟨0, 10, 0⟩ }
        ((⟨0, 30, 0⟩ : Vec3) - rayDown.origin).length ⟨0, 30, 0⟩) := by
  have hm : ((⟨0, 50, 0⟩ : Vec3) + ⟨0, 10, 0⟩) / (2 : ℝ) = ⟨0, 30, 0⟩ := by
    ext <;> norm_num
  have hd : (atOrigin 10).terrainDist ⟨0, 30, 0⟩ = 0 := by
    rw [terrainDist_yAxis]; norm_num
  have ha : |(atOrigin 10).terrainDist
      (((⟨0, 50, 0⟩ : Vec3) + ⟨0, 10, 0⟩) / (2 : ℝ))| < 0.1 := by
    rw [hm, hd]; norm_num
  have hb := (atOrigin 10).bisect_accept rayDown
    { blankHit with t := 40, hitPos := ⟨0, 10, 0⟩ } 99 ⟨0, 50, 0⟩ ⟨0, 10, 0⟩ ha
  rw [hm] at hb
  exact hb

/-- Witness of C1: the ray from `(0, 50, 0)` down to the terrain of radius 10. -/
theorem intersect_hit_tolerance_witness :
    ((atOrigin 10).intersect (sphereHitAt 40 ⟨0, 10, 0⟩) rayDown blankHit).1 = true ∧
      |(atOrigin 10).terrainDist
        ((atOrigin 10).intersect (sphereHitAt 40 ⟨0, 10, 0⟩) rayDown blankHit).2.hitPos| < 0.1 :=
  ⟨by rw [bisect_rayDown],
    intersect_hit_tolerance (atOrigin 10) (sphereHitAt 40 ⟨0, 10, 0⟩) rayDown blankHit
      (by rw [bisect_rayDown])⟩

/-- C8: when the sphere test misses, `intersect` returns true exactly when one
of the first 100 marching points is within the tolerance; it then reports the
least such index `k` as `iteration = k + 1`, `t = t_k` and `hitPos = p_k`;
otherwise it returns false with `iteration = 100`.  The counter is always
between 1 and 100 and a miss leaves it at 100. -/
theorem march_characterisation (T : Terrain) (sphereIntersect : SphereTest) (ray : Ray)
    (res : Hit) (hmiss : (sphereIntersect ray res).1 = false) :
    ((T.intersect sphereIntersect ray res).1 = true ↔
        ∃ i, i < 100 ∧ |T.marchD ray i| < 0.1) ∧
      (∀ k, k < 100 → |T.marchD ray k| < 0.1 → (∀ i, i < k → ¬ |T.marchD ray i| < 0.1) →
        (T.intersect sphereIntersect ray res).1 = true ∧
        (T.intersect sphereIntersect ray res).2.iteration = k + 1 ∧
        (T.intersect sphereIntersect ray res).2.t = T.marchT ray k ∧
        (T.intersect sphereIntersect ray res).2.hitPos = T.marchP ray k) ∧
      ((∀ i, i < 100 → ¬ |T.marchD ray i| < 0.1) →
        (T.intersect sphereIntersect ray res).1 = false ∧
        (T.intersect sphereIntersect ray res).2.iteration = 100) ∧
      1 ≤ (T.intersect sphereIntersect ray res).2.iteration ∧
      (T.intersect sphereIntersect ray res).2.iteration ≤ 100 ∧
      ((T.intersect sphereIntersect ray res).1 = false →
        (T.intersect sphereIntersect ray res).2.iteration = 100) := by
  rw [T.intersect_of_miss sphereIntersect ray res hmiss]
  have hfirst := fun k => T.march_first ray 100 0 k { (sphereIntersect ray res).2 with iteration := 0 }
  have hnone := T.march_none ray 100 0 { (sphereIntersect ray res).2 with iteration := 0 }
  simp only [Nat.zero_add] at hfirst hnone
  refine ⟨?_, ?_, ?_, ?_⟩
  · rcases T.march_cases ray 100 0 { (sphereIntersect ray res).2 with iteration := 0 } with
      ⟨k, hk, hd, _, he⟩ | ⟨hn, he⟩
    · rw [he]
      simp only [Nat.zero_add] at hd
      exact ⟨fun _ => ⟨k, hk, hd⟩, fun _ => rfl⟩
    · rw [he]
      simp only [Nat.zero_add] at hn
      constructor
      · intro h; simp at h
      · rintro ⟨i, hi, hd⟩; exact absurd hd (hn i hi)
  · intro k hk hd hb
    rw [hfirst k hk hd hb]
    refine ⟨rfl, ?_, rfl, rfl⟩
    simp [accept_iteration]
  · intro hn
    rw [hnone hn]
    exact ⟨rfl, by simp⟩
  · rcases T.march_cases ray 100 0 { (sphereIntersect ray res).2 with iteration := 0 } with
      ⟨k, hk, _, _, he⟩ | ⟨_, he⟩
    · rw [he]
      simp only [accept_iteration]
      refine ⟨by omega, by omega, fun h => by simp at h⟩
    · rw [he]
      simp

/-- Witness of C8: the ray from `(0, 20, 0)` upwards, which the sphere test misses. -/
theorem march_characterisation_witness :
    (sphereMiss rayUp blankHit).1 = false ∧
      1 ≤ ((atOrigin 10).intersect sphereMiss rayUp blankHit).2.iteration ∧
      ((atOrigin 10).intersect sphereMiss rayUp blankHit).2.iteration ≤ 100 :=
  ⟨rfl, (march_characterisation (atOrigin 10) sphereMiss rayUp blankHit rfl).2.2.2.1,
    (march_characterisation (atOrigin 10) sphereMiss rayUp blankHit rfl).2.2.2.2.1⟩

/-! ## The reported parameter -/

theorem length_eval_sub (ray : Ray) (t : ℝ) :
    (ray.eval t - ray.origin).length = |t| * ray.direction.length := by
  have h : ∀ a : ℝ, (t * a) * (t * a) = (t * t) * (a * a) := fun a => by ring
  simp only [Vec3.length, Ray.eval, Vec3.sub_x, Vec3.sub_y, Vec3.sub_z, Vec3.add_x, Vec3.add_y,
    Vec3.add_z, Vec3.smul_x, Vec3.smul_y, Vec3.smul_z, add_sub_cancel_left, h, ← mul_add]
  rw [Real.sqrt_mul (mul_self_nonneg t), Real.sqrt_mul_self_eq_abs]

theorem eval_rayUp (t : ℝ) : rayUp.eval t = ⟨0, 20 + t, 0⟩ := by
  ext <;> simp [Ray.eval, rayUp]

theorem marchT_rayUp :
    (atOrigin 10).marchT rayUp 0 = 0 ∧ (atOrigin 10).marchT rayUp 1 = -10 ∧
      (atOrigin 10).marchT rayUp 2 = -30 ∧ (atOrigin 10).marchT rayUp 3 = -50 := by
  have h0 : (atOrigin 10).marchT rayUp 0 = 0 := rfl
  have h1 : (atOrigin 10).marchT rayUp 1 = -10 := by
    rw [marchT, h0, eval_rayUp, terrainDist_yAxis]; norm_num
  have h2 : (atOrigin 10).marchT rayUp 2 = -30 := by
    rw [marchT, h1, eval_rayUp, terrainDist_yAxis]; norm_num
  have h3 : (atOrigin 10).marchT rayUp 3 = -50 := by
    rw [marchT, h2, eval_rayUp, terrainDist_yAxis]; norm_num
  exact ⟨h0, h1, h2, h3⟩

theorem marchD_rayUp :
    (atOrigin 10).marchD rayUp 0 = -10 ∧ (atOrigin 10).marchD rayUp 1 = -20 ∧
      (atOrigin 10).marchD rayUp 2 = -20 ∧ (atOrigin 10).marchD rayUp 3 = 0 := by
  obtain ⟨h0, h1, h2, h3⟩ := marchT_rayUp
  refine ⟨?_, ?_, ?_, ?_⟩
  · rw [marchD, marchP, h0, eval_rayUp, terrainDist_yAxis]; norm_num
  · rw [marchD, marchP, h1, eval_rayUp, terrainDist_yAxis]; norm_num
  · rw [marchD, marchP, h2, eval_rayUp, terrainDist_yAxis]; norm_num
  · rw [marchD, marchP, h3, eval_rayUp, terrainDist_yAxis]; norm_num

/-- The marching loop on the ray from `(0, 20, 0)` upwards: the origin is inside
the displaced surface, the parameter runs backwards through -10, -30 and -50,
and the fourth point `(0, -30, 0)` is accepted. -/
theorem march_rayUp :
    (atOrigin 10).intersect sphereMiss rayUp blankHit =
      (true, (atOrigin 10).accept { blankHit with iteration := 4 } (-50) ⟨0, -30, 0⟩) := by
  obtain ⟨d0, d1, d2, d3⟩ := marchD_rayUp
  rw [(atOrigin 10).intersect_of_miss sphereMiss rayUp blankHit rfl]
  have hb : ∀ i, i < 3 → ¬ |(atOrigin 10).marchD rayUp (0 + i)| < 0.1 := by
    intro i hi
    have hcases : i = 0 ∨ i = 1 ∨ i = 2 := by omega
    rcases hcases with rfl | rfl | rfl
    · rw [Nat.add_zero, d0]; norm_num
    · rw [Nat.zero_add, d1]; norm_num
    · rw [Nat.zero_add, d2]; norm_num
  have hh : |(atOrigin 10).marchD rayUp (0 + 3)| < 0.1 := by
    rw [Nat.zero_add, d3]; norm_num
  rw [(atOrigin 10).march_first rayUp 100 0 3 _ (by norm_num) hh hb]
  have hp : (atOrigin 10).marchP rayUp (0 + 3) = ⟨0, -30, 0⟩ := by
    rw [Nat.zero_add, marchP, marchT_rayUp.2.2.2, eval_rayUp]; norm_num
  have ht : (atOrigin 10).marchT rayUp (0 + 3) = -50 := by
    rw [Nat.zero_add, marchT_rayUp.2.2.2]
  rw [hp, ht]
  rfl

theorem length_rayUp_direction : rayUp.direction.length = 1 := by
  simp [rayUp, Vec3.length]

/-- C2, counterexample: on the ray from `(0, 20, 0)` upwards, of unit direction,
`intersect` returns true with `t = -50` although the hit position `(0, -30, 0)`
is at distance 50 from the ray origin. -/
theorem t_eq_distance_counterexample :
    rayUp.direction.length = 1 ∧
      ((atOrigin 10).intersect sphereMiss rayUp blankHit).1 = true ∧
      ((atOrigin 10).intersect sphereMiss rayUp blankHit).2.t = -50 ∧
      (((atOrigin 10).intersect sphereMiss rayUp blankHit).2.hitPos - rayUp.origin).length = 50 ∧
      ((atOrigin 10).intersect sphereMiss rayUp blankHit).2.t ≠
        (((atOrigin 10).intersect sphereMiss rayUp blankHit).2.hitPos - rayUp.origin).length := by
  have hl : ((⟨0, -30, 0⟩ : Vec3) - rayUp.origin).length = 50 := by
    have e : (⟨0, -30, 0⟩ : Vec3) - rayUp.origin = ⟨0, -50, 0⟩ := by
      ext <;> norm_num [rayUp]
    rw [e, length_yAxis]; norm_num
  rw [march_rayUp]
  simp only [accept_t, accept_hitPos, hl]
  refine ⟨length_rayUp_direction, trivial, trivial, trivial, ?_⟩
  norm_num

/-- C2, amended: for a ray of unit direction, whenever `intersect` returns true,
on the bisection path `t` is the distance from the ray origin to the hit
position, and on the marching path `t` is the signed ray parameter of the hit
position, whose absolute value is that distance. -/
theorem t_matches_distance (T : Terrain) (sphereIntersect : SphereTest) (ray : Ray)
    (res : Hit) (hdir : ray.direction.length = 1)
    (h : (T.intersect sphereIntersect ray res).1 = true) :
    ((sphereIntersect ray res).1 = true →
        (T.intersect sphereIntersect ray res).2.t =
          ((T.intersect sphereIntersect ray res).2.hitPos - ray.origin).length) ∧
      ((sphereIntersect ray res).1 = false →
        (T.intersect sphereIntersect ray res).2.hitPos =
            ray.eval (T.intersect sphereIntersect ray res).2.t ∧
          |(T.intersect sphereIntersect ray res).2.t| =
            ((T.intersect sphereIntersect ray res).2.hitPos - ray.origin).length) := by
  constructor
  · intro hsp
    rw [T.intersect_of_hit sphereIntersect ray res hsp] at h ⊢
    obtain ⟨p, _, he⟩ := T.bisect_true ray _ _ _ _ h
    rw [he, accept_hitPos, accept_t]
  · intro hsp
    rw [T.intersect_of_miss sphereIntersect ray res hsp] at h ⊢
    rcases T.march_cases ray 100 0 { (sphereIntersect ray res).2 with iteration := 0 } with
      ⟨k, _, _, _, he⟩ | ⟨_, he⟩
    · rw [he, accept_hitPos, accept_t]
      refine ⟨rfl, ?_⟩
      rw [marchP, length_eval_sub, hdir, mul_one]
    · rw [he] at h
      simp at h

/-- Witness of the amended C2 on the ray from `(0, 20, 0)` upwards. -/
theorem t_matches_distance_witness :
    rayUp.direction.length = 1 ∧
      ((atOrigin 10).intersect sphereMiss rayUp blankHit).1 = true ∧
      |((atOrigin 10).intersect sphereMiss rayUp blankHit).2.t| =
        (((atOrigin 10).intersect sphereMiss rayUp blankHit).2.hitPos - rayUp.origin).length :=
  ⟨length_rayUp_direction, by rw [march_rayUp],
    ((t_matches_distance (atOrigin 10) sphereMiss rayUp blankHit length_rayUp_direction
      (by rw [march_rayUp])).2 rfl).2⟩

/-! ## Rays that stay far from the terrain -/

/-- While the forward ray stays at distance at least `radius + 40.1` from the
centre, the marching parameter never decreases and every pseudo-distance met is
at least the tolerance. -/
theorem march_far (T : Terrain) (ray : Ray)
    (hfar : ∀ t : ℝ, 0 ≤ t → T.sphere.radius + 40.1 ≤ (ray.eval t - T.sphere.center).length)
    (i : Nat) : 0 ≤ T.marchT ray i ∧ 0.1 ≤ T.marchD ray i := by
  have hd : ∀ j, 0 ≤ T.marchT ray j → 0.1 ≤ T.marchD ray j := by
    intro j hj
    have h1 := hfar _ hj
    have h2 := heightMap_le (T.approxUV (ray.eval (T.marchT ray j)))
    simp only [marchD, marchP, terrainDist]
    norm_num at h1 ⊢
    linarith
  induction i with
  | zero => exact ⟨le_refl _, hd 0 (le_refl _)⟩
  | succ i ih =>
    have ht : 0 ≤ T.marchT ray (i + 1) := by
      have h3 : T.marchT ray (i + 1) = T.marchT ray i + T.marchD ray i := rfl
      rw [h3]
      have := ih.2
      norm_num at this
      linarith [ih.1]
    exact ⟨ht, hd _ ht⟩

theorem rayFar_far (t : ℝ) (ht : 0 ≤ t) :
    (atOrigin 10).sphere.radius + 40.1 ≤ (rayFar.eval t - (atOrigin 10).sphere.center).length := by
  simp only [atOrigin, rayFar, Vec3.length, Ray.eval, Vec3.sub_x, Vec3.sub_y, Vec3.sub_z,
    Vec3.add_x, Vec3.add_y, Vec3.add_z, Vec3.smul_x, Vec3.smul_y, Vec3.smul_z, sub_zero]
  apply Real.le_sqrt_of_sq_le
  nlinarith [mul_self_nonneg t]

theorem approxUV_halfPlane_x (r x y : ℝ) (hx : 0 ≤ x) :
    ((atOrigin r).approxUV ⟨x, y, 0⟩).x = 0 := by
  have harg : Complex.arg ⟨x / (⟨x, y, 0⟩ : Vec3).length, 0⟩ = 0 :=
    Complex.arg_eq_zero_iff.2 ⟨div_nonneg hx (Vec3.length_nonneg _), rfl⟩
  have h1 : (⟨x, y, 0⟩ : Vec3) - (atOrigin r).sphere.center = ⟨x, y, 0⟩ := by
    ext <;> simp [atOrigin]
  simp only [approxUV, h1]
  simp [normalize, atan2, harg]

theorem terrainDist_halfPlane (r x y : ℝ) (hx : 0 ≤ x) :
    (atOrigin r).terrainDist ⟨x, y, 0⟩ = Real.sqrt (x * x + y * y) - r - 20 := by
  have h1 : (⟨x, y, 0⟩ : Vec3) - (atOrigin r).sphere.center = ⟨x, y, 0⟩ := by
    ext <;> simp [atOrigin]
  simp only [terrainDist, h1, heightMap_of_x_eq_zero _ (approxUV_halfPlane_x r x y hx)]
  simp [Vec3.length, atOrigin]

theorem eval_rayGraze (t : ℝ) : rayGraze.eval t = ⟨3020, -(3020 - t), 0⟩ := by
  ext <;> simp [Ray.eval, rayGraze]
  ring

/-- One marching step along the tangent line of a sphere of radius `R`: at
distance `s` before the point of tangency the step is `√(R² + s²) - R`, and a
bound `R ≤ s * n` on `s` gives the bound `R ≤ s' * (n + 1)` after the step. -/
theorem graze_step (R s n : ℝ) (hR : 0 < R) (hn : 1 ≤ n) (hs : R ≤ s * n) (hsR : s ≤ R) :
    R ≤ (s - (Real.sqrt (R * R + s * s) - R)) * (n + 1) ∧
      s - (Real.sqrt (R * R + s * s) - R) ≤ R := by
  have hw0 : 0 ≤ Real.sqrt (R * R + s * s) := Real.sqrt_nonneg _
  have hw2 : Real.sqrt (R * R + s * s) ^ 2 = R * R + s * s :=
    Real.sq_sqrt (by nlinarith [mul_self_nonneg R, mul_self_nonneg s])
  have hs0 : 0 < s := by
    by_contra hneg
    push_neg at hneg
    nlinarith
  set w := Real.sqrt (R * R + s * s) with hw
  have hws : s ≤ w := by
    by_contra hneg
    push_neg at hneg
    nlinarith
  refine ⟨?_, by linarith⟩
  by_contra hneg
  push_neg at hneg
  have hC : 0 ≤ (s + R) * (n + 1) - R := by nlinarith
  have h1 : (s + R) * (n + 1) - R < w * (n + 1) := by linarith
  have h2 : ((s + R) * (n + 1) - R) ^ 2 < (w * (n + 1)) ^ 2 :=
    sq_lt_sq' (by linarith) h1
  have h3 : (w * (n + 1)) ^ 2 = (R * R + s * s) * (n + 1) ^ 2 := by
    rw [mul_pow, hw2]
  rw [h3] at h2
  have h4 : 0 ≤ R * (2 * (s * n) * (n + 1) - (2 * n + 1) * R) := by
    apply mul_nonneg hR.le
    nlinarith
  nlinarith

/-- Along the grazing ray the distance `3020 - t_k` to the point of tangency
stays at least `3020 / (k + 1)`. -/
theorem rayGraze_invariant (k : Nat) :
    3020 ≤ (3020 - (atOrigin 3000).marchT rayGraze k) * ((k : ℝ) + 1) ∧
      3020 - (atOrigin 3000).marchT rayGraze k ≤ 3020 := by
  induction k with
  | zero => simp [marchT]
  | succ k ih =>
    have hstep : (atOrigin 3000).marchT rayGraze (k + 1) =
        (atOrigin 3000).marchT rayGraze k +
          (Real.sqrt (3020 * 3020 + (3020 - (atOrigin 3000).marchT rayGraze k) *
            (3020 - (atOrigin 3000).marchT rayGraze k)) - 3020) := by
      rw [marchT, eval_rayGraze, terrainDist_halfPlane _ _ _ (by norm_num)]
      ring_nf
    have hg := graze_step 3020 (3020 - (atOrigin 3000).marchT rayGraze k) ((k : ℝ) + 1)
      (by norm_num) (by linarith [(Nat.cast_nonneg k : (0 : ℝ) ≤ k)]) ih.1 ih.2
    rw [hstep]
    push_cast
    constructor
    · linarith [hg.1]
    · linarith [hg.2]

theorem graze_no_hit (s : ℝ) (hs : 30.2 ≤ s) :
    0.1 ≤ Real.sqrt (3020 * 3020 + -s * -s) - 3000 - 20 := by
  have hsq : (3020.1 : ℝ) ≤ Real.sqrt (3020 * 3020 + -s * -s) := by
    apply Real.le_sqrt_of_sq_le
    norm_num at hs ⊢
    nlinarith
  norm_num at hsq ⊢
  linarith

theorem marchD_rayGraze (k : Nat) (hk : k < 100) :
    0.1 ≤ (atOrigin 3000).marchD rayGraze k := by
  obtain ⟨h1, h2⟩ := rayGraze_invariant k
  have hk1 : ((k : ℝ) + 1) ≤ 100 := by
    have : (k : ℝ) ≤ 99 := by exact_mod_cast Nat.le_of_lt_succ hk
    linarith
  have hk0 : (0 : ℝ) ≤ k := Nat.cast_nonneg k
  have hs30 : 30.2 ≤ 3020 - (atOrigin 3000).marchT rayGraze k := by
    norm_num
    nlinarith
  rw [marchD, marchP, eval_rayGraze, terrainDist_halfPlane _ _ _ (by norm_num)]
  exact graze_no_hit _ hs30

theorem march_rayGraze :
    (atOrigin 3000).intersect sphereMiss rayGraze blankHit =
      (false, { blankHit with iteration := 100 }) := by
  have hn : ∀ i, i < 100 → ¬ |(atOrigin 3000).marchD rayGraze (0 + i)| < 0.1 := by
    intro i hi
    rw [Nat.zero_add]
    exact not_lt.2 (le_trans (marchD_rayGraze i hi) (le_abs_self _))
  rw [(atOrigin 3000).intersect_of_miss sphereMiss rayGraze blankHit rfl,
    (atOrigin 3000).march_none rayGraze 100 0 _ hn]
  rfl

/-- C7, counterexample: the ray along the line `x = 3020`, `z = 0` has unit
direction and stays outside the base sphere of radius 3000, so the sphere test
misses; it touches the displaced surface at `t = 3020`, yet `intersect` returns
false after its 100 marching iterations. -/
theorem march_finds_hit_counterexample :
    rayGraze.direction.length = 1 ∧
      (∀ t : ℝ, (atOrigin 3000).sphere.radius <
        (rayGraze.eval t - (atOrigin 3000).sphere.center).length) ∧
      (sphereMiss rayGraze blankHit).1 = false ∧
      (∃ t : ℝ, 0 ≤ t ∧ (atOrigin 3000).terrainDist (rayGraze.eval t) ≤ 0) ∧
      ((atOrigin 3000).intersect sphereMiss rayGraze blankHit).1 = false ∧
      ((atOrigin 3000).intersect sphereMiss rayGraze blankHit).2.iteration = 100 := by
  refine ⟨by simp [rayGraze, Vec3.length], ?_, rfl, ⟨3020, by norm_num, ?_⟩, ?_, ?_⟩
  · intro t
    rw [eval_rayGraze]
    simp only [atOrigin, Vec3.length, Vec3.sub_x, Vec3.sub_y, Vec3.sub_z, sub_zero]
    apply Real.lt_sqrt_of_sq_lt
    nlinarith [mul_self_nonneg (3020 - t)]
  · rw [eval_rayGraze, terrainDist_halfPlane _ _ _ (by norm_num)]
    have h : (3020 : ℝ) * 3020 + -(3020 - 3020) * -(3020 - 3020) = 3020 * 3020 := by norm_num
    rw [h, Real.sqrt_mul_self (by norm_num)]
    norm_num
  · rw [march_rayGraze]
  · rw [march_rayGraze]

/-- C7, amended: for a ray of unit direction that the sphere test misses and
whose forward path reaches the displaced surface, `intersect` returns true
exactly when one of the first 100 marching points is within the tolerance; when
it returns true the counter is between 1 and 100, and when it returns false the
counter is 100. -/
theorem march_hit_iteration (T : Terrain) (sphereIntersect : SphereTest) (ray : Ray)
    (res : Hit) (_hdir : ray.direction.length = 1)
    (hmiss : (sphereIntersect ray res).1 = false)
    (_hreach : ∃ t : ℝ, 0 ≤ t ∧ T.terrainDist (ray.eval t) ≤ 0) :
    ((T.intersect sphereIntersect ray res).1 = true ↔
        ∃ i, i < 100 ∧ |T.terrainDist (ray.eval (T.marchT ray i))| < 0.1) ∧
      ((T.intersect sphereIntersect ray res).1 = true →
        1 ≤ (T.intersect sphereIntersect ray res).2.iteration ∧
          (T.intersect sphereIntersect ray res).2.iteration ≤ 100) ∧
      ((T.intersect sphereIntersect ray res).1 = false →
        (T.intersect sphereIntersect ray res).2.iteration = 100) := by
  rw [T.intersect_of_miss sphereIntersect ray res hmiss]
  rcases T.march_cases ray 100 0 { (sphereIntersect ray res).2 with iteration := 0 } with
    ⟨k, hk, hd, _, he⟩ | ⟨hn, he⟩
  · rw [he]
    simp only [Nat.zero_add] at hd
    refine ⟨⟨fun _ => ⟨k, hk, hd⟩, fun _ => rfl⟩, fun _ => ?_, fun h => by simp at h⟩
    simp only [accept_iteration]
    constructor <;> omega
  · rw [he]
    simp only [Nat.zero_add] at hn
    refine ⟨⟨fun h => by simp at h, ?_⟩, fun h => by simp at h, fun _ => by simp⟩
    rintro ⟨i, hi, hd⟩
    exact absurd hd (hn i hi)

/-- Witness of the amended C7: the ray from `(0, 20, 0)` upwards starts inside
the displaced surface of the terrain of radius 10. -/
theorem march_hit_iteration_witness :
    rayUp.direction.length = 1 ∧ (sphereMiss rayUp blankHit).1 = false ∧
      (∃ t : ℝ, 0 ≤ t ∧ (atOrigin 10).terrainDist (rayUp.eval t) ≤ 0) ∧
      (((atOrigin 10).intersect sphereMiss rayUp blankHit).1 = true →
        1 ≤ ((atOrigin 10).intersect sphereMiss rayUp blankHit).2.iteration ∧
          ((atOrigin 10).intersect sphereMiss rayUp blankHit).2.iteration ≤ 100) :=
  have hreach : ∃ t : ℝ, 0 ≤ t ∧ (atOrigin 10).terrainDist (rayUp.eval t) ≤ 0 :=
    ⟨0, le_refl _, by rw [eval_rayUp, terrainDist_yAxis]; norm_num⟩
  ⟨length_rayUp_direction, rfl, hreach,
    (march_hit_iteration (atOrigin 10) sphereMiss rayUp blankHit length_rayUp_direction rfl
      hreach).2.1⟩

/-! ## The normal estimate -/

theorem sin_tenth_gt : (0.0997 : ℝ) < Real.sin 0.1 := by
  have h := Real.sin_gt_sub_cube (x := (0.1 : ℝ)) (by norm_num) (by norm_num)
  norm_num at h ⊢
  linarith

/-- The angle `16π - 50`, by which 50 falls short of eight full turns. -/
theorem sin_fifty_eq : Real.sin 50 = -Real.sin (16 * Real.pi - 50) := by
  have h := Real.sin_sub_nat_mul_two_pi 50 8
  rw [← h, ← Real.sin_neg]
  congr 1
  push_cast
  ring

theorem cos_fifty_eq : Real.cos 50 = Real.cos (16 * Real.pi - 50) := by
  have h := Real.cos_sub_nat_mul_two_pi 50 8
  rw [← h, ← Real.cos_neg]
  congr 1
  push_cast
  ring

theorem sin_seventyfive_eq : Real.sin 75 = -Real.sin (24 * Real.pi - 75) := by
  have h := Real.sin_sub_nat_mul_two_pi 75 12
  rw [← h, ← Real.sin_neg]
  congr 1
  push_cast
  ring

/-- Two-sided bounds on the sine of a small angle from its cubic Taylor polynomial. -/
theorem sin_interval (x lo hi a b : ℝ) (hlo : lo < x) (hhi : x < hi) (h0 : 0 ≤ lo) (h1 : hi ≤ 1)
    (ha : a ≤ lo - hi ^ 3 / 6 - hi ^ 4 * (5 / 96))
    (hb : hi - lo ^ 3 / 6 + hi ^ 4 * (5 / 96) ≤ b) :
    a < Real.sin x ∧ Real.sin x < b := by
  have hx0 : 0 < x := lt_of_le_of_lt h0 hlo
  have hx1 : x ≤ 1 := le_trans hhi.le h1
  have habs : |x| = x := abs_of_pos hx0
  have hb := abs_le.1 (Real.sin_bound (x := x) (by rw [habs]; exact hx1))
  rw [habs] at hb
  have h3 : x ^ 3 ≤ hi ^ 3 := by gcongr
  have h3' : lo ^ 3 ≤ x ^ 3 := by gcongr
  have h4 : x ^ 4 ≤ hi ^ 4 := by gcongr
  constructor
  · linarith [hb.1]
  · linarith [hb.2]

theorem sin_fifty_bounds : -0.2627 < Real.sin 50 ∧ Real.sin 50 < -0.2620 := by
  have h1 := Real.pi_gt_d6
  have h2 := Real.pi_lt_d6
  have h := sin_interval (16 * Real.pi - 50) 0.265472 0.265488 0.2620 0.2627
    (by linarith) (by linarith) (by norm_num) (by norm_num) (by norm_num) (by norm_num)
  rw [sin_fifty_eq]
  constructor <;> linarith [h.1, h.2]

theorem sin_seventyfive_bounds : -0.3892 < Real.sin 75 ∧ Real.sin 75 < -0.3862 := by
  have h1 := Real.pi_gt_d6
  have h2 := Real.pi_lt_d6
  have h := sin_interval (24 * Real.pi - 75) 0.398208 0.398232 0.3862 0.3892
    (by linarith) (by linarith) (by norm_num) (by norm_num) (by norm_num) (by norm_num)
  rw [sin_seventyfive_eq]
  constructor <;> linarith [h.1, h.2]

theorem cos_fifty_gt : (0.96 : ℝ) < Real.cos 50 := by
  have h1 := Real.pi_gt_d6
  have h2 := Real.pi_lt_d6
  have h := Real.one_sub_sq_div_two_le_cos (x := 16 * Real.pi - 50)
  rw [cos_fifty_eq]
  nlinarith


/-- The weight `du` of `heightMapNormal` in closed form. -/
theorem du_eq (u : Vec2) :
    heightMap (u + ⟨0.001, 0⟩) - heightMap (u - ⟨0.001, 0⟩) =
      40 * Real.sin 0.1 * Real.cos (100 * u.x) * Real.sin (100 * u.y) := by
  have e1 : 100 * (u.x + 0.001) = 100 * u.x + 0.1 := by ring
  have e2 : 100 * (u.x - 0.001) = 100 * u.x - 0.1 := by ring
  simp only [heightMap, Vec2.add2_x, Vec2.add2_y, Vec2.sub2_x, Vec2.sub2_y, add_zero, sub_zero, e1, e2,
    Real.sin_add, Real.sin_sub]
  ring

/-- The weight `dv` of `heightMapNormal` in closed form. -/
theorem dv_eq (u : Vec2) :
    heightMap (u + ⟨0, 0.001⟩) - heightMap (u - ⟨0, 0.001⟩) =
      40 * Real.sin 0.1 * Real.sin (100 * u.x) * Real.cos (100 * u.y) := by
  have e1 : 100 * (u.y + 0.001) = 100 * u.y + 0.1 := by ring
  have e2 : 100 * (u.y - 0.001) = 100 * u.y - 0.1 := by ring
  simp only [heightMap, Vec2.add2_x, Vec2.add2_y, Vec2.sub2_x, Vec2.sub2_y, add_zero, sub_zero, e1, e2,
    Real.sin_add, Real.sin_sub]
  ring

/-- On the equator (`v = 1/2`) the two weights cannot lie on the unit circle. -/
theorem weights_off_unit_circle (a : ℝ) :
    1 < (40 * Real.sin 0.1 * Real.cos a * Real.sin 50) ^ 2 +
      (40 * Real.sin 0.1 * Real.sin a * Real.cos 50) ^ 2 := by
  have hs := sin_tenth_gt
  have h50 := sin_fifty_bounds.2
  have hc := cos_fifty_gt
  have hA : 1 < 40 * Real.sin 0.1 * -Real.sin 50 := by
    have h50' : (0.2620 : ℝ) < -Real.sin 50 := by linarith
    have := mul_lt_mul hs h50'.le (by norm_num) (by linarith)
    norm_num at this ⊢
    linarith
  have hB : 1 < 40 * Real.sin 0.1 * Real.cos 50 := by
    have := mul_lt_mul hs hc.le (by norm_num) (by linarith)
    norm_num at this ⊢
    linarith
  have hS : 1 < (40 * Real.sin 0.1 * Real.sin 50) ^ 2 := by nlinarith
  have hC : 1 < (40 * Real.sin 0.1 * Real.cos 50) ^ 2 := by nlinarith
  have hca := Real.cos_sq_add_sin_sq a
  have h1 : (40 * Real.sin 0.1 * Real.cos a * Real.sin 50) ^ 2 =
      (40 * Real.sin 0.1 * Real.sin 50) ^ 2 * Real.cos a ^ 2 := by ring
  have h2 : (40 * Real.sin 0.1 * Real.sin a * Real.cos 50) ^ 2 =
      (40 * Real.sin 0.1 * Real.cos 50) ^ 2 * Real.sin a ^ 2 := by ring
  rw [h1, h2]
  rcases eq_or_ne (Real.cos a) 0 with h0 | h0
  · have : Real.sin a ^ 2 = 1 := by rw [h0] at hca; linarith
    rw [h0, this]; linarith
  · have hpos : 0 < Real.cos a ^ 2 := by positivity
    nlinarith [sq_nonneg (Real.sin a)]

/-- The vector that `heightMapNormal` normalizes is not the zero vector. -/
theorem normal_sum_ne_zero (T : Terrain) (p : Vec3) (hp : p ≠ T.sphere.center) :
    (heightMap (T.approxUV p + ⟨0.001, 0⟩) - heightMap (T.approxUV p - ⟨0.001, 0⟩)) *
          (⟨1, 0, 0⟩ : Vec3) +
        (heightMap (T.approxUV p + ⟨0, 0.001⟩) - heightMap (T.approxUV p - ⟨0, 0.001⟩)) *
          (⟨0, 0, 1⟩ : Vec3) +
        normalize (p - T.sphere.center) ≠ ⟨0, 0, 0⟩ := by
  have hn := length_normalize (Vec3.length_pos_of_ne hp)
  have hn2 := Vec3.length_sq (normalize (p - T.sphere.center))
  rw [hn] at hn2
  intro hz
  rw [du_eq, dv_eq] at hz
  have hx := congrArg Vec3.x hz
  have hy := congrArg Vec3.y hz
  have hz' := congrArg Vec3.z hz
  simp only [Vec3.add_x, Vec3.add_y, Vec3.add_z, Vec3.smul_x, Vec3.smul_y, Vec3.smul_z,
    mul_zero, mul_one, zero_add, add_zero] at hx hy hz'
  have hv : (T.approxUV p).y = 1 / 2 := by
    simp only [approxUV, hy, Real.arccos_zero]
    field_simp
    ring
  have e50 : 100 * (T.approxUV p).y = 50 := by rw [hv]; norm_num
  rw [e50] at hx hz'
  have hw := weights_off_unit_circle (100 * (T.approxUV p).x)
  have hxx : (normalize (p - T.sphere.center)).x =
      -(40 * Real.sin 0.1 * Real.cos (100 * (T.approxUV p).x) * Real.sin 50) := by linarith
  have hzz : (normalize (p - T.sphere.center)).z =
      -(40 * Real.sin 0.1 * Real.sin (100 * (T.approxUV p).x) * Real.cos 50) := by linarith
  rw [hxx, hy, hzz] at hn2
  nlinarith

theorem heightMapNormal_length (T : Terrain) (p : Vec3) (hp : p ≠ T.sphere.center) :
    (T.heightMapNormal p).length = 1 := by
  simp only [heightMapNormal]
  apply length_normalize
  rcases (Vec3.length_nonneg ((heightMap (T.approxUV p + ⟨0.001, 0⟩) -
        heightMap (T.approxUV p - ⟨0.001, 0⟩)) * (⟨1, 0, 0⟩ : Vec3) +
      (heightMap (T.approxUV p + ⟨0, 0.001⟩) - heightMap (T.approxUV p - ⟨0, 0.001⟩)) *
        (⟨0, 0, 1⟩ : Vec3) +
      normalize (p - T.sphere.center))).lt_or_eq with h | h
  · exact h
  · exact absurd ((Vec3.length_eq_zero_iff _).1 h.symm) (T.normal_sum_ne_zero p hp)

/-- A successful `intersect` returns a record filled in by `accept` at its hit
position. -/
theorem intersect_true_accept (T : Terrain) (sphereIntersect : SphereTest) (ray : Ray)
    (res : Hit) (h : (T.intersect sphereIntersect ray res).1 = true) :
    ∃ (r : Hit) (t : ℝ) (p : Vec3), (T.intersect sphereIntersect ray res).2 = T.accept r t p := by
  cases hsp : (sphereIntersect ray res).1 with
  | true =>
    rw [T.intersect_of_hit sphereIntersect ray res hsp] at h ⊢
    obtain ⟨p, _, he⟩ := T.bisect_true ray _ _ _ _ h
    exact ⟨_, _, p, he⟩
  | false =>
    rw [T.intersect_of_miss sphereIntersect ray res hsp] at h ⊢
    rcases T.march_cases ray 100 0 { (sphereIntersect ray res).2 with iteration := 0 } with
      ⟨k, _, _, _, he⟩ | ⟨_, he⟩
    · exact ⟨_, _, _, by rw [he]⟩
    · rw [he] at h
      simp at h

/-- C3: for every point `p` other than the sphere centre, the vector
`du * (1,0,0) + dv * (0,0,1) + normalize (p - center)` is not the zero vector
and `heightMapNormal p` has length 1; hence a successful `intersect` whose hit
position is such a point reports a normal of length 1. -/
theorem heightMapNormal_unit (T : Terrain) (p : Vec3) (hp : p ≠ T.sphere.center) :
    (heightMap (T.approxUV p + ⟨0.001, 0⟩) - heightMap (T.approxUV p - ⟨0.001, 0⟩)) *
            (⟨1, 0, 0⟩ : Vec3) +
          (heightMap (T.approxUV p + ⟨0, 0.001⟩) - heightMap (T.approxUV p - ⟨0, 0.001⟩)) *
            (⟨0, 0, 1⟩ : Vec3) +
          normalize (p - T.sphere.center) ≠ ⟨0, 0, 0⟩ ∧
      (T.heightMapNormal p).length = 1 ∧
      ∀ (sphereIntersect : SphereTest) (ray : Ray) (res : Hit),
        (T.intersect sphereIntersect ray res).1 = true →
        (T.intersect sphereIntersect ray res).2.hitPos = p →
        (T.intersect sphereIntersect ray res).2.hitNormal.length = 1 := by
  refine ⟨T.normal_sum_ne_zero p hp, T.heightMapNormal_length p hp, ?_⟩
  intro sphereIntersect ray res h hpos
  obtain ⟨r, t, q, he⟩ := T.intersect_true_accept sphereIntersect ray res h
  rw [he] at hpos ⊢
  rw [accept_hitPos] at hpos
  rw [accept_hitNormal, hpos]
  exact T.heightMapNormal_length p hp

/-- Witness of C3 at the point `(0, 30, 0)` of the terrain of radius 10, the hit
position of the ray from `(0, 50, 0)` downwards. -/
theorem heightMapNormal_unit_witness :
    (⟨0, 30, 0⟩ : Vec3) ≠ (atOrigin 10).sphere.center ∧
      ((atOrigin 10).heightMapNormal ⟨0, 30, 0⟩).length = 1 ∧
      ((atOrigin 10).intersect (sphereHitAt 40 ⟨0, 10, 0⟩) rayDown blankHit).2.hitNormal.length
        = 1 :=
  have h : (⟨0, 30, 0⟩ : Vec3) ≠ (atOrigin 10).sphere.center := by
    intro h
    have := congrArg Vec3.y h
    simp [atOrigin] at this
  ⟨h, (heightMapNormal_unit (atOrigin 10) ⟨0, 30, 0⟩ h).2.1,
    (heightMapNormal_unit (atOrigin 10) ⟨0, 30, 0⟩ h).2.2 (sphereHitAt 40 ⟨0, 10, 0⟩) rayDown
      blankHit (by rw [bisect_rayDown]) (by rw [bisect_rayDown, accept_hitPos])⟩

/-! ## The scenario on the negative `z` axis -/

theorem normalize_negZ (z : ℝ) (hz : z < 0) : normalize ⟨0, 0, z⟩ = ⟨0, 0, -1⟩ := by
  have hl : (⟨0, 0, z⟩ : Vec3).length = -z := by
    simp [Vec3.length, Real.sqrt_mul_self_eq_abs, abs_of_neg hz]
  have hne : z ≠ 0 := ne_of_lt hz
  ext
  · simp [normalize]
  · simp [normalize]
  · simp only [normalize, hl, Vec3.div_z]
    field_simp

theorem approxUV_negZ (r z : ℝ) (hz : z < 0) :
    (atOrigin r).approxUV ⟨0, 0, z⟩ = ⟨3 / 4, 1 / 2⟩ := by
  have h1 : (⟨0, 0, z⟩ : Vec3) - (atOrigin r).sphere.center = ⟨0, 0, z⟩ := by
    ext <;> simp [atOrigin]
  have hI : (⟨0, -1⟩ : ℂ) = -Complex.I := by
    apply Complex.ext <;> simp
  have hpi := Real.pi_pos
  have hneg : -(Real.pi / 2) < 0 := by linarith
  simp only [approxUV, h1, normalize_negZ z hz, atan2, hI, Complex.arg_neg_I, if_pos hneg,
    Real.arccos_zero]
  ext
  · show (-(Real.pi / 2) + 2 * Real.pi) / (2 * Real.pi) = 3 / 4
    field_simp
    ring
  · show Real.pi / 2 / Real.pi = 1 / 2
    field_simp
    ring

theorem terrainDist_negZ (r z : ℝ) (hz : z < 0) :
    (atOrigin r).terrainDist ⟨0, 0, z⟩ = -z - r - 20 * (Real.sin 75 * Real.sin 50 + 1) := by
  have h1 : (⟨0, 0, z⟩ : Vec3) - (atOrigin r).sphere.center = ⟨0, 0, z⟩ := by
    ext <;> simp [atOrigin]
  have hl : (⟨0, 0, z⟩ : Vec3).length = -z := by
    simp [Vec3.length, Real.sqrt_mul_self_eq_abs, abs_of_neg hz]
  have e1 : (100 : ℝ) * (3 / 4) = 75 := by norm_num
  have e2 : (100 : ℝ) * (1 / 2) = 50 := by norm_num
  simp only [terrainDist, h1, hl, approxUV_negZ r z hz, heightMap, e1, e2]
  rfl

/-- The displacement `heightMap (3/4, 1/2)` below the negative `z` axis. -/
theorem heightMap_negZ_bounds :
    22.0236 < 20 * (Real.sin 75 * Real.sin 50 + 1) ∧
      20 * (Real.sin 75 * Real.sin 50 + 1) < 22.0449 := by
  obtain ⟨a1, a2⟩ := sin_fifty_bounds
  obtain ⟨b1, b2⟩ := sin_seventyfive_bounds
  have hlo : (0.3862 : ℝ) * 0.2620 < (-Real.sin 75) * (-Real.sin 50) :=
    mul_lt_mul (by linarith) (by linarith) (by norm_num) (by linarith)
  have hhi : (-Real.sin 75) * (-Real.sin 50) < (0.3892 : ℝ) * 0.2627 :=
    mul_lt_mul (by linarith) (by linarith) (by linarith) (by norm_num)
  rw [neg_mul_neg] at hlo hhi
  norm_num at hlo hhi ⊢
  constructor <;> linarith

theorem mid_zAxis (a b : ℝ) :
    ((⟨0, 0, a⟩ : Vec3) + ⟨0, 0, b⟩) / (2 : ℝ) = ⟨0, 0, (a + b) / 2⟩ := by
  ext <;> simp

theorem bisectZ_outside (ray : Ray) (res : Hit) (n : Nat) (a b m : ℝ) (hm : (a + b) / 2 = m)
    (hneg : m < 0) (h : 0.1 ≤ -m - 10 - 20 * (Real.sin 75 * Real.sin 50 + 1)) :
    (atOrigin 10).bisect ray res (n + 1) ⟨0, 0, a⟩ ⟨0, 0, b⟩ =
      (atOrigin 10).bisect ray res n ⟨0, 0, m⟩ ⟨0, 0, b⟩ := by
  have hd := terrainDist_negZ 10 m hneg
  have h1 : ¬ |(atOrigin 10).terrainDist (((⟨0, 0, a⟩ : Vec3) + ⟨0, 0, b⟩) / (2 : ℝ))| < 0.1 := by
    rw [mid_zAxis, hm, hd, not_lt]
    exact le_trans h (le_abs_self _)
  have h2 : (atOrigin 10).terrainDist (((⟨0, 0, a⟩ : Vec3) + ⟨0, 0, b⟩) / (2 : ℝ)) > 0 := by
    rw [mid_zAxis, hm, hd]
    norm_num at h ⊢
    linarith
  rw [bisect_outside _ _ _ _ _ _ h1 h2, mid_zAxis, hm]

theorem bisectZ_inside (ray : Ray) (res : Hit) (n : Nat) (a b m : ℝ) (hm : (a + b) / 2 = m)
    (hneg : m < 0) (h : -m - 10 - 20 * (Real.sin 75 * Real.sin 50 + 1) ≤ -0.1) :
    (atOrigin 10).bisect ray res (n + 1) ⟨0, 0, a⟩ ⟨0, 0, b⟩ =
      (atOrigin 10).bisect ray res n ⟨0, 0, a⟩ ⟨0, 0, m⟩ := by
  have hd := terrainDist_negZ 10 m hneg
  have h1 : ¬ |(atOrigin 10).terrainDist (((⟨0, 0, a⟩ : Vec3) + ⟨0, 0, b⟩) / (2 : ℝ))| < 0.1 := by
    rw [mid_zAxis, hm, hd, not_lt, abs_of_nonpos (by norm_num at h ⊢; linarith)]
    norm_num at h ⊢
    linarith
  have h2 : ¬ (atOrigin 10).terrainDist (((⟨0, 0, a⟩ : Vec3) + ⟨0, 0, b⟩) / (2 : ℝ)) > 0 := by
    rw [mid_zAxis, hm, hd]
    norm_num at h ⊢
    linarith
  rw [bisect_inside _ _ _ _ _ _ h1 h2, mid_zAxis, hm]

theorem bisectZ_accept (ray : Ray) (res : Hit) (n : Nat) (a b m : ℝ) (hm : (a + b) / 2 = m)
    (hneg : m < 0) (h : |-m - 10 - 20 * (Real.sin 75 * Real.sin 50 + 1)| < 0.1) :
    (atOrigin 10).bisect ray res (n + 1) ⟨0, 0, a⟩ ⟨0, 0, b⟩ =
      (true, (atOrigin 10).accept res ((⟨0, 0, m⟩ : Vec3) - ray.origin).length ⟨0, 0, m⟩) := by
  have hd := terrainDist_negZ 10 m hneg
  have h1 : |(atOrigin 10).terrainDist (((⟨0, 0, a⟩ : Vec3) + ⟨0, 0, b⟩) / (2 : ℝ))| < 0.1 := by
    rw [mid_zAxis, hm, hd]
    exact h
  rw [bisect_accept _ _ _ _ _ _ h1, mid_zAxis, hm]

/-- The bisection on the ray from `(0, 0, -50)` towards the origin: the midpoints
are -30, -40, -35, -32.5, -31.25, -31.875, -32.1875 and -32.03125, and the
eighth is accepted. -/
theorem bisect_rayZ :
    (atOrigin 10).intersect (sphereHitAt 40 ⟨0, 0, -10⟩) rayZ blankHit =
      (true, (atOrigin 10).accept { blankHit with t := 40, hitPos := ⟨0, 0, -10⟩ }
        ((⟨0, 0, -32.03125⟩ : Vec3) - rayZ.origin).length ⟨0, 0, -32.03125⟩) := by
  obtain ⟨hlo, hhi⟩ := heightMap_negZ_bounds
  have h0 : (atOrigin 10).intersect (sphereHitAt 40 ⟨0, 0, -10⟩) rayZ blankHit =
      (atOrigin 10).bisect rayZ { blankHit with t := 40, hitPos := ⟨0, 0, -10⟩ } (99 + 1)
        ⟨0, 0, -50⟩ ⟨0, 0, -10⟩ := rfl
  rw [h0,
    bisectZ_inside _ _ 99 (-50) (-10) (-30) (by norm_num) (by norm_num)
      (by norm_num at hlo hhi ⊢; linarith),
    bisectZ_outside _ _ 98 (-50) (-30) (-40) (by norm_num) (by norm_num)
      (by norm_num at hlo hhi ⊢; linarith),
    bisectZ_outside _ _ 97 (-40) (-30) (-35) (by norm_num) (by norm_num)
      (by norm_num at hlo hhi ⊢; linarith),
    bisectZ_outside _ _ 96 (-35) (-30) (-32.5) (by norm_num) (by norm_num)
      (by norm_num at hlo hhi ⊢; linarith),
    bisectZ_inside _ _ 95 (-32.5) (-30) (-31.25) (by norm_num) (by norm_num)
      (by norm_num at hlo hhi ⊢; linarith),
    bisectZ_inside _ _ 94 (-32.5) (-31.25) (-31.875) (by norm_num) (by norm_num)
      (by norm_num at hlo hhi ⊢; linarith),
    bisectZ_outside _ _ 93 (-32.5) (-31.875) (-32.1875) (by norm_num) (by norm_num)
      (by norm_num at hlo hhi ⊢; linarith),
    bisectZ_accept _ _ 92 (-32.1875) (-31.875) (-32.03125) (by norm_num) (by norm_num)
      (by rw [abs_lt]; norm_num at hlo hhi ⊢; constructor <;> linarith)]


/-- C4, counterexample: in the scenario (centre `(0,0,0)`, radius 10, ray from
`(0,0,-50)` in the direction `(0,0,1)`, sphere entry point `(0,0,-10)`)
`intersect` returns true at the hit position `(0, 0, -32.03125)`, whose `z` is
not within 1 of -10. -/
theorem scenario_z_counterexample :
    ((atOrigin 10).intersect (sphereHitAt 40 ⟨0, 0, -10⟩) rayZ blankHit).1 = true ∧
      ((atOrigin 10).intersect (sphereHitAt 40 ⟨0, 0, -10⟩) rayZ blankHit).2.hitPos =
        ⟨0, 0, -32.03125⟩ ∧
      ¬ (-11 ≤ ((atOrigin 10).intersect (sphereHitAt 40 ⟨0, 0, -10⟩) rayZ blankHit).2.hitPos.z ∧
        ((atOrigin 10).intersect (sphereHitAt 40 ⟨0, 0, -10⟩) rayZ blankHit).2.hitPos.z ≤ -9) := by
  rw [bisect_rayZ]
  refine ⟨rfl, rfl, ?_⟩
  simp only [accept_hitPos]
  norm_num

/-- C4, amended: in the scenario `intersect` returns true, the hit position is
`(0, 0, -32.03125)`, whose `z` is within 0.1 of `-(10 + heightMap (3/4, 1/2))`,
and the reported coordinates are `u = 3/4` and `v = 1/2`, both in `[0, 1)`. -/
theorem scenario_z :
    ((atOrigin 10).intersect (sphereHitAt 40 ⟨0, 0, -10⟩) rayZ blankHit).1 = true ∧
      ((atOrigin 10).intersect (sphereHitAt 40 ⟨0, 0, -10⟩) rayZ blankHit).2.hitPos =
        ⟨0, 0, -32.03125⟩ ∧
      |((atOrigin 10).intersect (sphereHitAt 40 ⟨0, 0, -10⟩) rayZ blankHit).2.hitPos.z -
        -(10 + heightMap ⟨3 / 4, 1 / 2⟩)| < 0.1 ∧
      ((atOrigin 10).intersect (sphereHitAt 40 ⟨0, 0, -10⟩) rayZ blankHit).2.u = 3 / 4 ∧
      ((atOrigin 10).intersect (sphereHitAt 40 ⟨0, 0, -10⟩) rayZ blankHit).2.v = 1 / 2 ∧
      (0 ≤ ((atOrigin 10).intersect (sphereHitAt 40 ⟨0, 0, -10⟩) rayZ blankHit).2.u ∧
        ((atOrigin 10).intersect (sphereHitAt 40 ⟨0, 0, -10⟩) rayZ blankHit).2.u < 1) ∧
      (0 ≤ ((atOrigin 10).intersect (sphereHitAt 40 ⟨0, 0, -10⟩) rayZ blankHit).2.v ∧
        ((atOrigin 10).intersect (sphereHitAt 40 ⟨0, 0, -10⟩) rayZ blankHit).2.v < 1) := by
  obtain ⟨hlo, hhi⟩ := heightMap_negZ_bounds
  have hu : ((atOrigin 10).accept { blankHit with t := 40, hitPos := ⟨0, 0, -10⟩ }
      ((⟨0, 0, -32.03125⟩ : Vec3) - rayZ.origin).length ⟨0, 0, -32.03125⟩).u = 3 / 4 := by
    show ((atOrigin 10).approxUV ⟨0, 0, -32.03125⟩).x = 3 / 4
    rw [approxUV_negZ 10 _ (by norm_num)]
  have hv : ((atOrigin 10).accept { blankHit with t := 40, hitPos := ⟨0, 0, -10⟩ }
      ((⟨0, 0, -32.03125⟩ : Vec3) - rayZ.origin).length ⟨0, 0, -32.03125⟩).v = 1 / 2 := by
    show ((atOrigin 10).approxUV ⟨0, 0, -32.03125⟩).y = 1 / 2
    rw [approxUV_negZ 10 _ (by norm_num)]
  have e1 : (100 : ℝ) * (3 / 4) = 75 := by norm_num
  have e2 : (100 : ℝ) * (1 / 2) = 50 := by norm_num
  rw [bisect_rayZ, hu, hv]
  refine ⟨rfl, rfl, ?_, rfl, rfl, by norm_num, by norm_num⟩
  simp only [accept_hitPos, heightMap, e1, e2]
  rw [abs_lt]
  norm_num at hlo hhi ⊢
  constructor <;> linarith

/-! ## Rays through the centre -/

theorem length_smul (k : ℝ) (a : Vec3) : (k * a).length = |k| * a.length := by
  have h : ∀ b : ℝ, (k * b) * (k * b) = (k * k) * (b * b) := fun b => by ring
  simp only [Vec3.length, Vec3.smul_x, Vec3.smul_y, Vec3.smul_z, h, ← mul_add]
  rw [Real.sqrt_mul (mul_self_nonneg k), Real.sqrt_mul_self_eq_abs]

theorem approxUV_x_nonneg (T : Terrain) (p : Vec3) : 0 ≤ (T.approxUV p).x := by
  have hpi := Real.pi_pos
  have h1 := Complex.neg_pi_lt_arg
    ⟨(normalize (p - T.sphere.center)).x, (normalize (p - T.sphere.center)).z⟩
  simp only [approxUV, atan2]
  apply div_nonneg _ (by linarith)
  split_ifs with h
  · linarith
  · exact not_lt.1 h

theorem approxUV_y_nonneg (T : Terrain) (p : Vec3) : 0 ≤ (T.approxUV p).y := by
  simp only [approxUV]
  exact div_nonneg (Real.arccos_nonneg _) Real.pi_pos.le

theorem approxUV_y_le_one (T : Terrain) (p : Vec3) : (T.approxUV p).y ≤ 1 := by
  simp only [approxUV]
  rw [div_le_one Real.pi_pos]
  exact Real.arccos_le_pi _

theorem approxUV_y_eq_one_iff (T : Terrain) (p : Vec3) :
    (T.approxUV p).y = 1 ↔ (normalize (p - T.sphere.center)).y ≤ -1 := by
  simp only [approxUV]
  rw [div_eq_one_iff_eq Real.pi_pos.ne', Real.arccos_eq_pi]

theorem yAxis_ne_center (r y : ℝ) (hy : y ≠ 0) : (⟨0, y, 0⟩ : Vec3) ≠ (atOrigin r).sphere.center := by
  intro h
  exact hy (congrArg Vec3.y h)

/-! ## Straight below the centre -/

theorem normalize_yAxis_neg (y : ℝ) (hy : y < 0) : normalize ⟨0, y, 0⟩ = ⟨0, -1, 0⟩ := by
  have hne : y ≠ 0 := ne_of_lt hy
  rw [normalize, length_yAxis, abs_of_neg hy]
  ext
  · simp
  · simp only [Vec3.div_y]
    field_simp
  · simp

theorem approxUV_below (r y : ℝ) (hy : y < 0) : (atOrigin r).approxUV ⟨0, y, 0⟩ = ⟨0, 1⟩ := by
  have h1 : (⟨0, y, 0⟩ : Vec3) - (atOrigin r).sphere.center = ⟨0, y, 0⟩ := by
    ext <;> simp [atOrigin]
  have h0 : (⟨0, 0⟩ : ℂ) = 0 := rfl
  have hpi := Real.pi_pos
  simp only [approxUV, h1, normalize_yAxis_neg y hy, atan2, h0, Complex.arg_zero, lt_irrefl,
    if_false, Real.arccos_neg_one]
  ext
  · simp
  · show Real.pi / Real.pi = 1
    field_simp

/-- C12, counterexample: straight below the centre of the terrain of radius 10,
at `(0, -30, 0)`, the latitude coordinate is `v = 1`; this point is the hit
position of the ray from `(0, 20, 0)` upwards, which reports `res.v = 1`. -/
theorem latitude_half_open_counterexample :
    (⟨0, -30, 0⟩ : Vec3) ≠ (atOrigin 10).sphere.center ∧
      ((atOrigin 10).approxUV ⟨0, -30, 0⟩).y = 1 ∧
      ¬ ((atOrigin 10).approxUV ⟨0, -30, 0⟩).y < 1 ∧
      ((atOrigin 10).intersect sphereMiss rayUp blankHit).1 = true ∧
      ((atOrigin 10).intersect sphereMiss rayUp blankHit).2.hitPos = ⟨0, -30, 0⟩ ∧
      ((atOrigin 10).intersect sphereMiss rayUp blankHit).2.v = 1 := by
  have hv : ((atOrigin 10).approxUV ⟨0, -30, 0⟩).y = 1 := by
    rw [approxUV_below 10 (-30) (by norm_num)]
  refine ⟨yAxis_ne_center 10 (-30) (by norm_num), hv, by rw [hv]; exact lt_irrefl 1, ?_, ?_, ?_⟩
  · rw [march_rayUp]
  · rw [march_rayUp, accept_hitPos]
  · rw [march_rayUp]
    exact hv

theorem accept_u (T : Terrain) (res : Hit) (t : ℝ) (p : Vec3) :
    (T.accept res t p).u = (T.approxUV p).x := rfl

theorem accept_v (T : Terrain) (res : Hit) (t : ℝ) (p : Vec3) :
    (T.accept res t p).v = (T.approxUV p).y := rfl

/-- C12, amended: away from the sphere centre, `approxUV p` has `0 ≤ u` and `v` in
the closed interval `[0, 1]`, and `v = 1` when `p` is straight below the centre
(the unit direction has `y = -1`).  A successful hit at such a point has
`0 ≤ res.u` and `res.v` in `[0, 1]`. -/
theorem approxUV_intervals (T : Terrain) (p : Vec3) (_hp : p ≠ T.sphere.center) :
    0 ≤ (T.approxUV p).x ∧
      (0 ≤ (T.approxUV p).y ∧ (T.approxUV p).y ≤ 1) ∧
      ((normalize (p - T.sphere.center)).y = -1 → (T.approxUV p).y = 1) ∧
      ∀ (sphereIntersect : SphereTest) (ray : Ray) (res : Hit),
        (T.intersect sphereIntersect ray res).1 = true →
        (T.intersect sphereIntersect ray res).2.hitPos = p →
        0 ≤ (T.intersect sphereIntersect ray res).2.u ∧
          (0 ≤ (T.intersect sphereIntersect ray res).2.v ∧
            (T.intersect sphereIntersect ray res).2.v ≤ 1) := by
  refine ⟨T.approxUV_x_nonneg p, ⟨T.approxUV_y_nonneg p, T.approxUV_y_le_one p⟩,
    fun h => (T.approxUV_y_eq_one_iff p).2 h.le, ?_⟩
  intro sphereIntersect ray res h _
  obtain ⟨r, t, q, he⟩ := T.intersect_true_accept sphereIntersect ray res h
  rw [he, accept_u, accept_v]
  exact ⟨T.approxUV_x_nonneg q, T.approxUV_y_nonneg q, T.approxUV_y_le_one q⟩

/-- Witness of the amended C12 at the point `(0, -30, 0)` straight below the
centre of the terrain of radius 10. -/
theorem approxUV_intervals_witness :
    (⟨0, -30, 0⟩ : Vec3) ≠ (atOrigin 10).sphere.center ∧
      ((normalize ((⟨0, -30, 0⟩ : Vec3) - (atOrigin 10).sphere.center)).y = -1 →
        ((atOrigin 10).approxUV ⟨0, -30, 0⟩).y = 1) ∧
      (0 ≤ ((atOrigin 10).intersect sphereMiss rayUp blankHit).2.v ∧
        ((atOrigin 10).intersect sphereMiss rayUp blankHit).2.v ≤ 1) :=
  have hp := yAxis_ne_center 10 (-30) (by norm_num)
  ⟨hp, (approxUV_intervals (atOrigin 10) ⟨0, -30, 0⟩ hp).2.2.1,
    ((approxUV_intervals (atOrigin 10) ⟨0, -30, 0⟩ hp).2.2.2 sphereMiss rayUp blankHit
      (by rw [march_rayUp]) (by rw [march_rayUp, accept_hitPos])).2⟩

/-! ## Dependence on the radial direction only -/

theorem normalize_smul (k : ℝ) (a : Vec3) (hk : 0 < k) (ha : 0 < a.length) :
    normalize (k * a) = normalize a := by
  have hk0 : k ≠ 0 := ne_of_gt hk
  have ha0 : a.length ≠ 0 := ne_of_gt ha
  rw [normalize, normalize, length_smul, abs_of_pos hk]
  ext <;> simp <;> field_simp <;> ring

theorem scaled_sub (c p : Vec3) (k : ℝ) : c + k * (p - c) - c = k * (p - c) := by
  ext <;> simp

theorem normalize_normalize (a : Vec3) (ha : 0 < a.length) : normalize (normalize a) = normalize a := by
  have h1 := length_normalize ha
  conv_lhs => rw [normalize, h1]
  ext <;> simp

theorem approxUV_congr (T : Terrain) (p q : Vec3)
    (h : normalize (p - T.sphere.center) = normalize (q - T.sphere.center)) :
    T.approxUV p = T.approxUV q := by
  simp only [approxUV, h]

theorem heightMapNormal_congr (T : Terrain) (p q : Vec3)
    (h : normalize (p - T.sphere.center) = normalize (q - T.sphere.center)) :
    T.heightMapNormal p = T.heightMapNormal q := by
  simp only [heightMapNormal, h, T.approxUV_congr p q h]

/-- C13: away from the centre `approxUV` depends only on the radial direction:
scaling `p - center` by `k > 0` changes neither `approxUV` nor
`heightMapNormal`, and for a sphere of positive radius `terrainDist p` samples
`heightMap` at the coordinate of the radial projection
`center + radius * normalize (p - center)` of `p` onto the base sphere. -/
theorem approxUV_radial_only (T : Terrain) (p : Vec3) (k : ℝ) (hp : p ≠ T.sphere.center)
    (hk : 0 < k) :
    T.approxUV (T.sphere.center + k * (p - T.sphere.center)) = T.approxUV p ∧
      T.heightMapNormal (T.sphere.center + k * (p - T.sphere.center)) = T.heightMapNormal p ∧
      (0 < T.sphere.radius →
        T.approxUV (T.sphere.center + T.sphere.radius * normalize (p - T.sphere.center)) =
            T.approxUV p ∧
          T.terrainDist p = ((p - T.sphere.center).length - T.sphere.radius) -
            heightMap (T.approxUV
              (T.sphere.center + T.sphere.radius * normalize (p - T.sphere.center)))) := by
  have hl := Vec3.length_pos_of_ne hp
  have h1 : normalize (T.sphere.center + k * (p - T.sphere.center) - T.sphere.center) =
      normalize (p - T.sphere.center) := by
    rw [scaled_sub, normalize_smul k _ hk hl]
  refine ⟨T.approxUV_congr _ _ h1, T.heightMapNormal_congr _ _ h1, ?_⟩
  intro hr
  have h2 : normalize (T.sphere.center + T.sphere.radius * normalize (p - T.sphere.center) -
      T.sphere.center) = normalize (p - T.sphere.center) := by
    have e : T.sphere.center + T.sphere.radius * normalize (p - T.sphere.center) -
        T.sphere.center = T.sphere.radius * normalize (p - T.sphere.center) := by
      ext <;> simp
    rw [e, normalize_smul _ _ hr (by rw [length_normalize hl]; norm_num),
      normalize_normalize _ hl]
  have h3 := T.approxUV_congr _ _ h2
  exact ⟨h3, by rw [h3]; rfl⟩

/-- Witness of C13: the points `(0, 30, 0)` and `(0, 60, 0)` of the terrain of
radius 10. -/
theorem approxUV_radial_only_witness :
    (⟨0, 30, 0⟩ : Vec3) ≠ (atOrigin 10).sphere.center ∧ (0 : ℝ) < 2 ∧
      (atOrigin 10).approxUV ((atOrigin 10).sphere.center +
        (2 : ℝ) * ((⟨0, 30, 0⟩ : Vec3) - (atOrigin 10).sphere.center)) =
        (atOrigin 10).approxUV ⟨0, 30, 0⟩ :=
  ⟨yAxis_ne_center 10 30 (by norm_num), by norm_num,
    (approxUV_radial_only (atOrigin 10) ⟨0, 30, 0⟩ 2 (yAxis_ne_center 10 30 (by norm_num))
      (by norm_num)).1⟩

/-! ## The amplitude of the displacement -/

theorem heightMap_peak : heightMap ⟨Real.pi / 200, Real.pi / 200⟩ = 40 := by
  have e1 : 100 * (Real.pi / 200) = Real.pi / 2 := by ring
  simp only [heightMap, e1, Real.sin_pi_div_two]
  norm_num

/-- C14, counterexample: `heightMap` takes the value 40 at `(π/200, π/200)`, which
is above `40 * 0.1 = 4`; so 4 is not its largest value. -/
theorem amplitude_counterexample :
    heightMap ⟨Real.pi / 200, Real.pi / 200⟩ = 40 ∧
      (40 : ℝ) * 0.1 < heightMap ⟨Real.pi / 200, Real.pi / 200⟩ ∧
      ¬ (∀ u : Vec2, heightMap u ≤ 40 * 0.1) := by
  refine ⟨heightMap_peak, by rw [heightMap_peak]; norm_num, ?_⟩
  intro h
  have := h ⟨Real.pi / 200, Real.pi / 200⟩
  rw [heightMap_peak] at this
  norm_num at this

/-- C14, amended: the largest value of `heightMap` over all `(u, v)` is 40, which
is 400 times the acceptance tolerance 0.1 of the two loops. -/
theorem amplitude :
    (∀ u : Vec2, heightMap u ≤ 40) ∧ (∃ u : Vec2, heightMap u = 40) ∧
      (40 : ℝ) = 400 * 0.1 :=
  ⟨heightMap_le, ⟨⟨Real.pi / 200, Real.pi / 200⟩, heightMap_peak⟩, by norm_num⟩

/-! ## The frame of the hit record -/

theorem bisect_frame (T : Terrain) (ray : Ray) (res : Hit) (n : Nat) :
    ∀ s e : Vec3, (T.bisect ray res n s e).2.iteration = res.iteration ∧
      ((T.bisect ray res n s e).1 = false → (T.bisect ray res n s e).2 = res) := by
  induction n with
  | zero => intro s e; simp [bisect]
  | succ n ih =>
    intro s e
    simp only [bisect]
    split_ifs with h1 h2
    · exact ⟨rfl, fun h => by simp at h⟩
    · exact ih _ _
    · exact ih _ _

/-- C15: when the sphere test reports a hit, `intersect` leaves `iteration` as the
sphere test left it, and when it then returns false the whole record is as the
sphere test left it; when the sphere test reports a miss and `intersect` returns
false, the record is the one the sphere test left with `iteration` set to 100. -/
theorem intersect_frame (T : Terrain) (sphereIntersect : SphereTest) (ray : Ray) (res : Hit) :
    ((sphereIntersect ray res).1 = true →
        (T.intersect sphereIntersect ray res).2.iteration =
          (sphereIntersect ray res).2.iteration) ∧
      ((sphereIntersect ray res).1 = true → (T.intersect sphereIntersect ray res).1 = false →
        (T.intersect sphereIntersect ray res).2 = (sphereIntersect ray res).2) ∧
      ((sphereIntersect ray res).1 = false → (T.intersect sphereIntersect ray res).1 = false →
        (T.intersect sphereIntersect ray res).2 =
            { (sphereIntersect ray res).2 with iteration := 100 } ∧
          (T.intersect sphereIntersect ray res).2.t = (sphereIntersect ray res).2.t ∧
          (T.intersect sphereIntersect ray res).2.hitPos = (sphereIntersect ray res).2.hitPos ∧
          (T.intersect sphereIntersect ray res).2.u = (sphereIntersect ray res).2.u ∧
          (T.intersect sphereIntersect ray res).2.v = (sphereIntersect ray res).2.v ∧
          (T.intersect sphereIntersect ray res).2.hitNormal =
            (sphereIntersect ray res).2.hitNormal) := by
  refine ⟨?_, ?_, ?_⟩
  · intro hsp
    rw [T.intersect_of_hit sphereIntersect ray res hsp]
    exact (T.bisect_frame ray _ 100 _ _).1
  · intro hsp
    rw [T.intersect_of_hit sphereIntersect ray res hsp]
    exact (T.bisect_frame ray _ 100 _ _).2
  · intro hsp
    rw [T.intersect_of_miss sphereIntersect ray res hsp]
    intro hf
    rcases T.march_cases ray 100 0 { (sphereIntersect ray res).2 with iteration := 0 } with
      ⟨k, _, _, _, he⟩ | ⟨_, he⟩
    · rw [he] at hf
      simp at hf
    · rw [he]
      refine ⟨?_, rfl, rfl, rfl, rfl, rfl⟩
      simp

/-- Witness of C15: the ray from `(1000, 1000, 1000)`, which the sphere test
misses and the marching loop does not hit. -/
theorem intersect_frame_witness :
    (sphereMiss rayFar blankHit).1 = false ∧
      ((atOrigin 10).intersect sphereMiss rayFar blankHit).1 = false ∧
      ((atOrigin 10).intersect sphereMiss rayFar blankHit).2 =
        { (sphereMiss rayFar blankHit).2 with iteration := 100 } :=
  have hn : ∀ i, i < 100 → ¬ |(atOrigin 10).marchD rayFar (0 + i)| < 0.1 := fun i _ => by
    rw [Nat.zero_add]
    exact not_lt.2 (le_trans ((atOrigin 10).march_far rayFar rayFar_far i).2 (le_abs_self _))
  have hf : ((atOrigin 10).intersect sphereMiss rayFar blankHit).1 = false := by
    rw [(atOrigin 10).intersect_of_miss sphereMiss rayFar blankHit rfl,
      (atOrigin 10).march_none rayFar 100 0 _ hn]
  ⟨rfl, hf, ((intersect_frame (atOrigin 10) sphereMiss rayFar blankHit).2.2 rfl hf).1⟩

/-! ## The weights of the normal estimate -/

theorem sin_hundred_ne_zero : Real.sin 100 ≠ 0 := by
  intro h
  obtain ⟨n, hn⟩ := Real.sin_eq_zero_iff.1 h
  have h1 := Real.pi_gt_d2
  have h2 := Real.pi_lt_d2
  have hlo : (31 : ℝ) < n := by
    by_contra hc
    push_neg at hc
    nlinarith
  have hhi : (n : ℝ) < 32 := by
    by_contra hc
    push_neg at hc
    nlinarith
  have hlo' : (31 : ℤ) < n := by exact_mod_cast hlo
  have hhi' : n < (32 : ℤ) := by exact_mod_cast hhi
  omega

theorem vec2_shift_x (u : Vec2) (h : ℝ) : u + ⟨h, 0⟩ = ⟨u.x + h, u.y⟩ ∧ u - ⟨h, 0⟩ = ⟨u.x - h, u.y⟩ := by
  constructor <;> ext <;> simp

theorem vec2_shift_y (u : Vec2) (h : ℝ) : u + ⟨0, h⟩ = ⟨u.x, u.y + h⟩ ∧ u - ⟨0, h⟩ = ⟨u.x, u.y - h⟩ := by
  constructor <;> ext <;> simp

theorem heightMapNormal_below :
    (atOrigin 10).heightMapNormal ⟨0, -1, 0⟩ =
      normalize ⟨40 * Real.sin 0.1 * Real.sin 100, -1, 0⟩ := by
  have h1 : (⟨0, -1, 0⟩ : Vec3) - (atOrigin 10).sphere.center = ⟨0, -1, 0⟩ := by
    ext <;> simp [atOrigin]
  simp only [heightMapNormal, du_eq, dv_eq, h1, approxUV_below 10 (-1) (by norm_num),
    normalize_yAxis_neg (-1) (by norm_num)]
  congr 1
  ext <;> simp

theorem heightMapNormalCentral_below :
    (atOrigin 10).heightMapNormalCentral ⟨0, -1, 0⟩ =
      normalize ⟨500 * (40 * Real.sin 0.1 * Real.sin 100), -1, 0⟩ := by
  have h1 : (⟨0, -1, 0⟩ : Vec3) - (atOrigin 10).sphere.center = ⟨0, -1, 0⟩ := by
    ext <;> simp [atOrigin]
  have hx := fun u : Vec2 => du_eq u
  have hy := fun u : Vec2 => dv_eq u
  simp only [(vec2_shift_x _ _).1, (vec2_shift_x _ _).2, (vec2_shift_y _ _).1,
    (vec2_shift_y _ _).2] at hx hy
  simp only [heightMapNormalCentral, hx, hy]
  simp only [h1, approxUV_below 10 (-1) (by norm_num), normalize_yAxis_neg (-1) (by norm_num)]
  congr 1
  ext <;> simp
  ring

theorem normalize_xy_y (a : ℝ) : (normalize ⟨a, -1, 0⟩).y = -1 / Real.sqrt (a * a + 1) := by
  simp [normalize, Vec3.length]

/-- C16, counterexample: at the point `(0, -1, 0)` of the terrain of radius 10 the
weight `du` of the source is `40 sin(0.1) sin(100)`, not zero and so not 500
times itself, and the normal of the source differs from the one built with the
central differences divided by `2 * 0.001`. -/
theorem central_difference_counterexample :
    (heightMap ((atOrigin 10).approxUV ⟨0, -1, 0⟩ + ⟨0.001, 0⟩) -
        heightMap ((atOrigin 10).approxUV ⟨0, -1, 0⟩ - ⟨0.001, 0⟩) ≠
      (heightMap ((atOrigin 10).approxUV ⟨0, -1, 0⟩ + ⟨0.001, 0⟩) -
        heightMap ((atOrigin 10).approxUV ⟨0, -1, 0⟩ - ⟨0.001, 0⟩)) / (2 * 0.001)) ∧
      (atOrigin 10).heightMapNormal ⟨0, -1, 0⟩ ≠
        (atOrigin 10).heightMapNormalCentral ⟨0, -1, 0⟩ := by
  have hs : Real.sin 0.1 ≠ 0 := ne_of_gt (lt_trans (by norm_num) sin_tenth_gt)
  have ha : 40 * Real.sin 0.1 * Real.sin 100 ≠ 0 :=
    mul_ne_zero (mul_ne_zero (by norm_num) hs) sin_hundred_ne_zero
  constructor
  · rw [du_eq, approxUV_below 10 (-1) (by norm_num)]
    simp only [mul_zero, Real.cos_zero, mul_one]
    intro h
    apply ha
    have h2 : (40 * Real.sin 0.1 * Real.sin 100) * (2 * 0.001) =
        40 * Real.sin 0.1 * Real.sin 100 := by
      rw [eq_div_iff (by norm_num)] at h
      exact h
    linarith
  · rw [heightMapNormal_below, heightMapNormalCentral_below]
    intro h
    have hy := congrArg Vec3.y h
    rw [normalize_xy_y, normalize_xy_y] at hy
    set a := 40 * Real.sin 0.1 * Real.sin 100 with hadef
    have hp1 : 0 < a * a + 1 := by nlinarith [mul_self_nonneg a]
    have hp2 : 0 < 500 * a * (500 * a) + 1 := by nlinarith [mul_self_nonneg a]
    have hs1 : 0 < Real.sqrt (a * a + 1) := Real.sqrt_pos.2 hp1
    have hs2 : 0 < Real.sqrt (500 * a * (500 * a) + 1) := Real.sqrt_pos.2 hp2
    have heq : Real.sqrt (a * a + 1) = Real.sqrt (500 * a * (500 * a) + 1) := by
      rw [div_eq_div_iff hs1.ne' hs2.ne'] at hy
      linarith
    have hsq := congrArg (fun x => x ^ 2) heq
    simp only [Real.sq_sqrt hp1.le, Real.sq_sqrt hp2.le] at hsq
    have : a * a = 0 := by nlinarith
    exact ha (mul_self_eq_zero.1 this)

/-- C16, amended: the weights `du` and `dv` of `heightMapNormal` are the plain
differences `heightMap (u + 0.001, v) - heightMap (u - 0.001, v)` and
`heightMap (u, v + 0.001) - heightMap (u, v - 0.001)` at `(u, v) = approxUV p`,
which is `2 * 0.001` times the central-difference quotients, and the result is
`normalize (du * (1,0,0) + dv * (0,0,1) + normalize (p - center))`. -/
theorem heightMapNormal_weights (T : Terrain) (p : Vec3) :
    T.heightMapNormal p =
        normalize
          ((heightMap ⟨(T.approxUV p).x + 0.001, (T.approxUV p).y⟩ -
                heightMap ⟨(T.approxUV p).x - 0.001, (T.approxUV p).y⟩) * (⟨1, 0, 0⟩ : Vec3) +
            (heightMap ⟨(T.approxUV p).x, (T.approxUV p).y + 0.001⟩ -
                heightMap ⟨(T.approxUV p).x, (T.approxUV p).y - 0.001⟩) * (⟨0, 0, 1⟩ : Vec3) +
            normalize (p - T.sphere.center)) ∧
      heightMap ⟨(T.approxUV p).x + 0.001, (T.approxUV p).y⟩ -
          heightMap ⟨(T.approxUV p).x - 0.001, (T.approxUV p).y⟩ =
        2 * 0.001 * ((heightMap ⟨(T.approxUV p).x + 0.001, (T.approxUV p).y⟩ -
          heightMap ⟨(T.approxUV p).x - 0.001, (T.approxUV p).y⟩) / (2 * 0.001)) ∧
      heightMap ⟨(T.approxUV p).x, (T.approxUV p).y + 0.001⟩ -
          heightMap ⟨(T.approxUV p).x, (T.approxUV p).y - 0.001⟩ =
        2 * 0.001 * ((heightMap ⟨(T.approxUV p).x, (T.approxUV p).y + 0.001⟩ -
          heightMap ⟨(T.approxUV p).x, (T.approxUV p).y - 0.001⟩) / (2 * 0.001)) := by
  refine ⟨?_, ?_, ?_⟩
  · simp only [heightMapNormal, (vec2_shift_x _ _).1, (vec2_shift_x _ _).2, (vec2_shift_y _ _).1,
      (vec2_shift_y _ _).2]
  · field_simp
  · field_simp

/-! ## Hits lie on the ray -/

theorem eval_zero (ray : Ray) : ray.eval 0 = ray.origin := by
  ext <;> simp [Ray.eval]

theorem mid_eval (ray : Ray) (a b : ℝ) :
    (ray.eval a + ray.eval b) / (2 : ℝ) = ray.eval ((a + b) / 2) := by
  ext <;> simp [Ray.eval] <;> ring

/-- A successful bisection between two points of the forward ray accepts a point
of the forward ray. -/
theorem bisect_on_ray (T : Terrain) (ray : Ray) (res : Hit) (n : Nat) :
    ∀ a b : ℝ, 0 ≤ a → 0 ≤ b → (T.bisect ray res n (ray.eval a) (ray.eval b)).1 = true →
      ∃ m : ℝ, 0 ≤ m ∧ (T.bisect ray res n (ray.eval a) (ray.eval b)).2 =
        T.accept res (ray.eval m - ray.origin).length (ray.eval m) := by
  induction n with
  | zero => intro a b _ _ h; simp [bisect] at h
  | succ n ih =>
    intro a b ha hb h
    have hm : 0 ≤ (a + b) / 2 := by linarith
    simp only [bisect, mid_eval] at h ⊢
    split_ifs at h ⊢ with h1 h2
    · exact ⟨(a + b) / 2, hm, rfl⟩
    · exact ih _ _ hm hb h
    · exact ih _ _ ha hm h

/-- C17: for a ray of unit direction, when the sphere test (if it hits) reports a
position `ray.origin + ts * ray.direction` with `ts ≥ 0`, every successful
`intersect` has `hitPos = ray.origin + t * ray.direction` for the reported `t`,
on the bisection path and on the marching path. -/
theorem hit_on_ray (T : Terrain) (sphereIntersect : SphereTest) (ray : Ray) (res : Hit)
    (hdir : ray.direction.length = 1)
    (hsphere : (sphereIntersect ray res).1 = true →
      ∃ ts : ℝ, 0 ≤ ts ∧ (sphereIntersect ray res).2.hitPos = ray.origin + ts * ray.direction)
    (h : (T.intersect sphereIntersect ray res).1 = true) :
    (T.intersect sphereIntersect ray res).2.hitPos =
      ray.origin + (T.intersect sphereIntersect ray res).2.t * ray.direction := by
  cases hsp : (sphereIntersect ray res).1 with
  | true =>
    obtain ⟨ts, hts, hpos⟩ := hsphere hsp
    rw [T.intersect_of_hit sphereIntersect ray res hsp] at h ⊢
    have hpos' : (sphereIntersect ray res).2.hitPos = ray.eval ts := hpos
    rw [hpos', ← eval_zero ray] at h ⊢
    obtain ⟨m, hm, he⟩ := T.bisect_on_ray ray _ 100 0 ts (le_refl 0) hts h
    rw [he, accept_hitPos, accept_t, eval_zero, length_eval_sub, hdir, mul_one, abs_of_nonneg hm]
    rfl
  | false =>
    rw [T.intersect_of_miss sphereIntersect ray res hsp] at h ⊢
    rcases T.march_cases ray 100 0 { (sphereIntersect ray res).2 with iteration := 0 } with
      ⟨k, _, _, _, he⟩ | ⟨_, he⟩
    · rw [he, accept_hitPos, accept_t]
      rfl
    · rw [he] at h
      simp at h

/-- Witness of C17: the ray from `(0, 50, 0)` down to the terrain of radius 10,
with the sphere entry point `(0, 10, 0)` at parameter 40. -/
theorem hit_on_ray_witness :
    rayDown.direction.length = 1 ∧
      ((atOrigin 10).intersect (sphereHitAt 40 ⟨0, 10, 0⟩) rayDown blankHit).1 = true ∧
      ((atOrigin 10).intersect (sphereHitAt 40 ⟨0, 10, 0⟩) rayDown blankHit).2.hitPos =
        rayDown.origin +
          ((atOrigin 10).intersect (sphereHitAt 40 ⟨0, 10, 0⟩) rayDown blankHit).2.t *
            rayDown.direction :=
  have hd : rayDown.direction.length = 1 := by simp [rayDown, Vec3.length]
  have hs : (sphereHitAt 40 ⟨0, 10, 0⟩ rayDown blankHit).1 = true →
      ∃ ts : ℝ, 0 ≤ ts ∧ (sphereHitAt 40 ⟨0, 10, 0⟩ rayDown blankHit).2.hitPos =
        rayDown.origin + ts * rayDown.direction :=
    fun _ => ⟨40, by norm_num, by ext <;> simp [sphereHitAt, rayDown]; norm_num⟩
  ⟨hd, by rw [bisect_rayDown],
    hit_on_ray (atOrigin 10) (sphereHitAt 40 ⟨0, 10, 0⟩) rayDown blankHit hd hs
      (by rw [bisect_rayDown])⟩

/-! ## The nested segments of the bisection -/

/-- For a unit vector `d`, the longitude `atan2 d.z d.x` (plus `2π` when negative)
and the colatitude `arccos d.y` give `d` back through the spherical
parameterization. -/
theorem spherical_inverse (d : Vec3) (hd : d.x * d.x + d.y * d.y + d.z * d.z = 1) :
    Real.cos (if atan2 d.z d.x < 0 then atan2 d.z d.x + 2 * Real.pi else atan2 d.z d.x) *
        Real.sin (Real.arccos d.y) = d.x ∧
      Real.cos (Real.arccos d.y) = d.y ∧
      Real.sin (if atan2 d.z d.x < 0 then atan2 d.z d.x + 2 * Real.pi else atan2 d.z d.x) *
        Real.sin (Real.arccos d.y) = d.z := by
  have hy1 : -1 ≤ d.y := by
    nlinarith [mul_self_nonneg d.x, mul_self_nonneg d.z, mul_self_nonneg (d.y + 1)]
  have hy2 : d.y ≤ 1 := by
    nlinarith [mul_self_nonneg d.x, mul_self_nonneg d.z, mul_self_nonneg (d.y - 1)]
  have hcos : Real.cos (if atan2 d.z d.x < 0 then atan2 d.z d.x + 2 * Real.pi
      else atan2 d.z d.x) = Real.cos (atan2 d.z d.x) := by
    split_ifs
    · exact Real.cos_add_two_pi _
    · rfl
  have hsin : Real.sin (if atan2 d.z d.x < 0 then atan2 d.z d.x + 2 * Real.pi
      else atan2 d.z d.x) = Real.sin (atan2 d.z d.x) := by
    split_ifs
    · exact Real.sin_add_two_pi _
    · rfl
  have hst : Real.sin (Real.arccos d.y) = Complex.abs ⟨d.x, d.z⟩ := by
    rw [Real.sin_arccos, Complex.abs_apply, Complex.normSq_mk]
    congr 1
    nlinarith
  rw [hcos, hsin, hst, Real.cos_arccos hy1 hy2]
  refine ⟨?_, rfl, ?_⟩
  · by_cases hz : (⟨d.x, d.z⟩ : ℂ) = 0
    · have hx : d.x = 0 := congrArg Complex.re hz
      rw [hz, hx]
      simp
    · rw [atan2, Complex.cos_arg hz]
      have habs : Complex.abs ⟨d.x, d.z⟩ ≠ 0 := (map_ne_zero Complex.abs).2 hz
      field_simp
  · by_cases hz : (⟨d.x, d.z⟩ : ℂ) = 0
    · have hx : d.z = 0 := congrArg Complex.im hz
      rw [hz, hx]
      simp
    · rw [atan2, Complex.sin_arg]
      have habs : Complex.abs ⟨d.x, d.z⟩ ≠ 0 := (map_ne_zero Complex.abs).2 hz
      field_simp

theorem approxUV_angles (T : Terrain) (p : Vec3) :
    2 * Real.pi * (T.approxUV p).x =
        (if atan2 (normalize (p - T.sphere.center)).z (normalize (p - T.sphere.center)).x < 0
          then atan2 (normalize (p - T.sphere.center)).z (normalize (p - T.sphere.center)).x +
            2 * Real.pi
          else atan2 (normalize (p - T.sphere.center)).z (normalize (p - T.sphere.center)).x) ∧
      Real.pi * (T.approxUV p).y = Real.arccos (normalize (p - T.sphere.center)).y := by
  have hpi := Real.pi_pos
  have hne : Real.pi ≠ 0 := ne_of_gt hpi
  have hne2 : 2 * Real.pi ≠ 0 := by positivity
  simp only [approxUV]
  constructor
  · rw [mul_comm, div_mul_cancel₀ _ hne2]
  · rw [mul_comm, div_mul_cancel₀ _ hne]

/-- C19: away from the sphere centre, with `(u, v) = approxUV p`, `phi = 2π u` and
`theta = π v`, the vector `(cos phi sin theta, cos theta, sin phi sin theta)` is
`normalize (p - center)`; so for `p` on the base sphere the point `(px, py, pz)`
of `heightMapNormal` is `p - center`. -/
theorem approxUV_inverts (T : Terrain) (p : Vec3) (hp : p ≠ T.sphere.center) :
    (⟨Real.cos (2 * Real.pi * (T.approxUV p).x) * Real.sin (Real.pi * (T.approxUV p).y),
        Real.cos (Real.pi * (T.approxUV p).y),
        Real.sin (2 * Real.pi * (T.approxUV p).x) * Real.sin (Real.pi * (T.approxUV p).y)⟩ :
        Vec3) = normalize (p - T.sphere.center) ∧
      ((p - T.sphere.center).length = T.sphere.radius →
        T.paramPoint (T.approxUV p) = p - T.sphere.center) := by
  have hl := Vec3.length_pos_of_ne hp
  have hunit : (normalize (p - T.sphere.center)).x * (normalize (p - T.sphere.center)).x +
      (normalize (p - T.sphere.center)).y * (normalize (p - T.sphere.center)).y +
      (normalize (p - T.sphere.center)).z * (normalize (p - T.sphere.center)).z = 1 := by
    rw [← Vec3.length_sq, length_normalize hl]
    norm_num
  obtain ⟨h1, h2, h3⟩ := spherical_inverse _ hunit
  obtain ⟨a1, a2⟩ := T.approxUV_angles p
  have hfirst : (⟨Real.cos (2 * Real.pi * (T.approxUV p).x) *
        Real.sin (Real.pi * (T.approxUV p).y),
      Real.cos (Real.pi * (T.approxUV p).y),
      Real.sin (2 * Real.pi * (T.approxUV p).x) * Real.sin (Real.pi * (T.approxUV p).y)⟩ :
      Vec3) = normalize (p - T.sphere.center) := by
    rw [a1, a2]
    ext
    · exact h1
    · exact h2
    · exact h3
  refine ⟨hfirst, ?_⟩
  intro hr
  have hx := congrArg Vec3.x hfirst
  have hy := congrArg Vec3.y hfirst
  have hz := congrArg Vec3.z hfirst
  simp only at hx hy hz
  have hne : (p - T.sphere.center).length ≠ 0 := ne_of_gt hl
  simp only [paramPoint]
  ext
  · show T.sphere.radius * Real.cos (2 * Real.pi * (T.approxUV p).x) *
      Real.sin (Real.pi * (T.approxUV p).y) = (p - T.sphere.center).x
    rw [mul_assoc, hx, ← hr, normalize, Vec3.div_x]
    field_simp
  · show T.sphere.radius * Real.cos (Real.pi * (T.approxUV p).y) = (p - T.sphere.center).y
    rw [hy, ← hr, normalize, Vec3.div_y]
    field_simp
  · show T.sphere.radius * Real.sin (2 * Real.pi * (T.approxUV p).x) *
      Real.sin (Real.pi * (T.approxUV p).y) = (p - T.sphere.center).z
    rw [mul_assoc, hz, ← hr, normalize, Vec3.div_z]
    field_simp

/-- Witness of C19 at the point `(0, 30, 0)` of the base sphere of radius 30. -/
theorem approxUV_inverts_witness :
    (⟨0, 30, 0⟩ : Vec3) ≠ (atOrigin 30).sphere.center ∧
      ((⟨0, 30, 0⟩ : Vec3) - (atOrigin 30).sphere.center).length = (atOrigin 30).sphere.radius ∧
      (atOrigin 30).paramPoint ((atOrigin 30).approxUV ⟨0, 30, 0⟩) =
        (⟨0, 30, 0⟩ : Vec3) - (atOrigin 30).sphere.center :=
  have hp := yAxis_ne_center 30 30 (by norm_num)
  have hr : ((⟨0, 30, 0⟩ : Vec3) - (atOrigin 30).sphere.center).length =
      (atOrigin 30).sphere.radius := by
    have e : (⟨0, 30, 0⟩ : Vec3) - (atOrigin 30).sphere.center = ⟨0, 30, 0⟩ := by
      ext <;> simp [atOrigin]
    rw [e, length_yAxis]
    simp [atOrigin]
  ⟨hp, hr, (approxUV_inverts (atOrigin 30) ⟨0, 30, 0⟩ hp).2 hr⟩

/-! ## The longitude coordinate in `float` arithmetic -/

theorem roundHalfEven_eq (r : ℝ) (K : ℤ) (h1 : (K : ℝ) - 1 / 2 < r) (h2 : r < (K : ℝ) + 1 / 2) :
    roundHalfEven r = K := by
  rcases lt_or_le r (K : ℝ) with h | h
  · have hf : ⌊r⌋ = K - 1 := by
      rw [Int.floor_eq_iff]
      push_cast
      constructor <;> linarith
    have hc1 : ¬ r - ((K - 1 : ℤ) : ℝ) < 1 / 2 := by
      push_cast
      linarith
    have hc2 : 1 / 2 < r - ((K - 1 : ℤ) : ℝ) := by
      push_cast
      linarith
    simp only [roundHalfEven, hf, if_neg hc1, if_pos hc2]
    ring
  · have hf : ⌊r⌋ = K := by
      rw [Int.floor_eq_iff]
      constructor <;> linarith
    have hc1 : r - (K : ℝ) < 1 / 2 := by linarith
    simp only [roundHalfEven, hf, if_pos hc1]

theorem roundHalfEven_near (r : ℝ) : |(roundHalfEven r : ℝ) - r| ≤ 1 / 2 := by
  have h1 := Int.floor_le r
  have h2 := Int.lt_floor_add_one r
  rw [abs_le]
  unfold roundHalfEven
  split_ifs with c1 c2 c3
  · constructor <;> linarith
  · push_cast
    constructor <;> linarith
  · constructor <;> linarith
  · push_cast
    constructor <;> linarith

theorem log_two_eq (x : ℝ) (e : ℤ) (h1 : (2 : ℝ) ^ e ≤ x) (h2 : x < (2 : ℝ) ^ (e + 1)) :
    Int.log 2 x = e := by
  have hx : 0 < x := lt_of_lt_of_le (by positivity) h1
  have a1 : e ≤ Int.log 2 x := (Int.zpow_le_iff_le_log (by norm_num) hx).1 (by exact_mod_cast h1)
  have a2 : Int.log 2 x < e + 1 := (Int.lt_zpow_iff_log_lt (by norm_num) hx).1 (by exact_mod_cast h2)
  omega

theorem roundBinary_eq (prec : ℕ) (x : ℝ) (e : ℤ) (h1 : (2 : ℝ) ^ e ≤ x)
    (h2 : x < (2 : ℝ) ^ (e + 1)) :
    roundBinary prec x =
      (roundHalfEven (x / (2 : ℝ) ^ (e - ((prec : ℤ) - 1))) : ℝ) *
        (2 : ℝ) ^ (e - ((prec : ℤ) - 1)) := by
  have hx : 0 < x := lt_of_lt_of_le (by positivity) h1
  rw [roundBinary, if_neg (ne_of_gt hx), abs_of_pos hx, log_two_eq x e h1 h2]

theorem roundBinary_near (prec : ℕ) (x : ℝ) (e : ℤ) (h1 : (2 : ℝ) ^ e ≤ x)
    (h2 : x < (2 : ℝ) ^ (e + 1)) :
    |roundBinary prec x - x| ≤ (2 : ℝ) ^ (e - ((prec : ℤ) - 1)) / 2 := by
  have hu : (0 : ℝ) < (2 : ℝ) ^ (e - ((prec : ℤ) - 1)) := by positivity
  rw [roundBinary_eq prec x e h1 h2]
  have h := roundHalfEven_near (x / (2 : ℝ) ^ (e - ((prec : ℤ) - 1)))
  have e1 : (roundHalfEven (x / (2 : ℝ) ^ (e - ((prec : ℤ) - 1))) : ℝ) *
      (2 : ℝ) ^ (e - ((prec : ℤ) - 1)) - x =
      ((roundHalfEven (x / (2 : ℝ) ^ (e - ((prec : ℤ) - 1))) : ℝ) -
        x / (2 : ℝ) ^ (e - ((prec : ℤ) - 1))) * (2 : ℝ) ^ (e - ((prec : ℤ) - 1)) := by
    field_simp
  rw [e1, abs_mul, abs_of_pos hu]
  calc |(roundHalfEven (x / (2 : ℝ) ^ (e - ((prec : ℤ) - 1))) : ℝ) -
        x / (2 : ℝ) ^ (e - ((prec : ℤ) - 1))| * (2 : ℝ) ^ (e - ((prec : ℤ) - 1))
      ≤ 1 / 2 * (2 : ℝ) ^ (e - ((prec : ℤ) - 1)) := mul_le_mul_of_nonneg_right h hu.le
    _ = (2 : ℝ) ^ (e - ((prec : ℤ) - 1)) / 2 := by ring

theorem ulp_values :
    (2 : ℝ) ^ ((2 : ℤ) - (((53 : ℕ) : ℤ) - 1)) = 1 / 2 ^ 50 ∧
      (2 : ℝ) ^ ((2 : ℤ) - (((24 : ℕ) : ℤ) - 1)) = 1 / 2 ^ 21 ∧
      (2 : ℝ) ^ ((0 : ℤ) - (((53 : ℕ) : ℤ) - 1)) = 1 / 2 ^ 52 ∧
      (2 : ℝ) ^ ((0 : ℤ) - (((24 : ℕ) : ℤ) - 1)) = 1 / 2 ^ 23 := by
  refine ⟨?_, ?_, ?_, ?_⟩ <;> norm_num [zpow_neg]

theorem toDouble_near (x : ℝ) (e : ℤ) (n : ℕ)
    (hu : (2 : ℝ) ^ (e - (((53 : ℕ) : ℤ) - 1)) = 1 / 2 ^ n) (h1 : (2 : ℝ) ^ e ≤ x)
    (h2 : x < (2 : ℝ) ^ (e + 1)) :
    x - 1 / 2 ^ n / 2 ≤ toDouble x ∧ toDouble x ≤ x + 1 / 2 ^ n / 2 := by
  have h := roundBinary_near 53 x e h1 h2
  rw [hu, abs_le] at h
  unfold toDouble
  constructor <;> linarith [h.1, h.2]

theorem toFloat_eq (d : ℝ) (e : ℤ) (n : ℕ) (K : ℤ)
    (hu : (2 : ℝ) ^ (e - (((24 : ℕ) : ℤ) - 1)) = 1 / 2 ^ n) (h1 : (2 : ℝ) ^ e ≤ d)
    (h2 : d < (2 : ℝ) ^ (e + 1)) (hk1 : (K : ℝ) - 1 / 2 < d * 2 ^ n)
    (hk2 : d * 2 ^ n < (K : ℝ) + 1 / 2) :
    toFloat d = (K : ℝ) / 2 ^ n := by
  rw [toFloat, roundBinary_eq 24 d e h1 h2, hu]
  have hk : roundHalfEven (d / (1 / 2 ^ n)) = K := by
    apply roundHalfEven_eq
    · rw [div_div_eq_mul_div, div_one]
      exact hk1
    · rw [div_div_eq_mul_div, div_one]
      exact hk2
  rw [hk]
  ring

/-- A sum in `[4, 8)` whose distance below `2 * M_PI` is at most `6e-8` narrows to
the `float` 13176795 / 2 ^ 21 = 6.2831854820251465, which is above `2 * M_PI`. -/
theorem wrap_narrows_up (phi : ℝ) (h1 : -(6 / 10 ^ 8) ≤ phi) (h2 : phi < 0) :
    toFloat (toDouble (phi + 2 * M_PI)) = 13176795 / 2 ^ 21 := by
  obtain ⟨u53, u24, _, _⟩ := ulp_values
  have hM : M_PI = 884279719003555 / 2 ^ 48 := rfl
  have hlo : (2 : ℝ) ^ (2 : ℤ) ≤ phi + 2 * M_PI := by
    norm_num at h1 ⊢
    linarith
  have hhi : phi + 2 * M_PI < (2 : ℝ) ^ ((2 : ℤ) + 1) := by
    norm_num at h1 ⊢
    linarith
  obtain ⟨hd1, hd2⟩ := toDouble_near (phi + 2 * M_PI) 2 50 u53 hlo hhi
  have h := toFloat_eq (toDouble (phi + 2 * M_PI)) 2 21 13176795 u24
    (by norm_num at h1 hd1 ⊢; linarith) (by norm_num at h1 hd2 ⊢; linarith)
    (by norm_num at h1 hd1 ⊢; linarith) (by norm_num at h1 hd2 ⊢; linarith)
  rw [h]
  norm_num

/-- The quotient of 13176795 / 2 ^ 21 by `2 * M_PI`, 1.0000000278..., narrows to the
`float` 1. -/
theorem quotient_narrows_to_one :
    toFloat (toDouble ((13176795 / 2 ^ 21 : ℝ) / (2 * M_PI))) = 1 := by
  obtain ⟨_, _, u53, u24⟩ := ulp_values
  have hq1 : (1 : ℝ) + 2 / 10 ^ 8 < (13176795 / 2 ^ 21 : ℝ) / (2 * M_PI) := by
    unfold M_PI
    rw [lt_div_iff₀ (by norm_num)]
    norm_num
  have hq2 : (13176795 / 2 ^ 21 : ℝ) / (2 * M_PI) < 1 + 3 / 10 ^ 8 := by
    unfold M_PI
    rw [div_lt_iff₀ (by norm_num)]
    norm_num
  have hlo : (2 : ℝ) ^ (0 : ℤ) ≤ (13176795 / 2 ^ 21 : ℝ) / (2 * M_PI) := by
    rw [zpow_zero]
    linarith
  have hhi : (13176795 / 2 ^ 21 : ℝ) / (2 * M_PI) < (2 : ℝ) ^ ((0 : ℤ) + 1) := by
    rw [zero_add, zpow_one]
    linarith
  obtain ⟨hd1, hd2⟩ := toDouble_near _ 0 52 u53 hlo hhi
  generalize (13176795 / 2 ^ 21 : ℝ) / (2 * M_PI) = q at hq1 hq2 hd1 hd2 ⊢
  have h := toFloat_eq (toDouble q) 0 23 8388608 u24
    (by rw [zpow_zero]; norm_num at hq1 hd1 ⊢; linarith)
    (by rw [zero_add, zpow_one]; norm_num at hq2 hd2 ⊢; linarith)
    (by norm_num at hq1 hd1 ⊢; linarith) (by norm_num at hq2 hd2 ⊢; linarith)
  rw [h]
  norm_num

/-- C11, the defect: the bound `u < 1` fails in the arithmetic of the source.
For every value of the `float` `phi` of line 40 in `[-6e-8, 0)`, line 41
adds `2*M_PI` and the sum narrows to the `float` 13176795 / 2 ^ 21, which is
above `2*M_PI`, and line 43 then returns `u = 1`. -/
theorem approxUVFloatU_tiny_negative (phi : ℝ) (h1 : -(6 / 10 ^ 8) ≤ phi) (h2 : phi < 0) :
    toFloat (toDouble (phi + 2 * M_PI)) = 13176795 / 2 ^ 21 ∧
      2 * M_PI < (13176795 / 2 ^ 21 : ℝ) ∧
      approxUVFloatU phi = 1 ∧ ¬ approxUVFloatU phi < 1 := by
  have hu : approxUVFloatU phi = 1 := by
    simp only [approxUVFloatU, if_pos h2, wrap_narrows_up phi h1 h2]
    exact quotient_narrows_to_one
  refine ⟨wrap_narrows_up phi h1 h2, ?_, hu, ?_⟩
  · unfold M_PI
    norm_num
  · rw [hu]
    exact lt_irrefl 1

/-- The `float` nearest to `-1e-8` is `-11258999 / 2 ^ 50`. -/
theorem toFloat_neg_1e8 : toFloat (-(1 / 10 ^ 8) : ℝ) = -(11258999 / 2 ^ 50) := by
  have hx : (-(1 / 10 ^ 8) : ℝ) ≠ 0 := by norm_num
  have hl : Int.log 2 |(-(1 / 10 ^ 8) : ℝ)| = -27 := by
    rw [abs_neg, abs_of_pos (by norm_num)]
    exact log_two_eq _ (-27) (by norm_num [zpow_neg]) (by norm_num [zpow_neg])
  have hu : (2 : ℝ) ^ ((-27 : ℤ) - (((24 : ℕ) : ℤ) - 1)) = 1 / 2 ^ 50 := by
    norm_num [zpow_neg]
  rw [toFloat, roundBinary, if_neg hx, hl, hu]
  have hk : roundHalfEven (-(1 / 10 ^ 8) / (1 / 2 ^ 50)) = -11258999 := by
    apply roundHalfEven_eq <;> norm_num
  rw [hk]
  norm_num

/-- Witness of C11 at the failing input `p = (1, 0, -1e-8)`, where line 40 stores
the `float` `phi = -11258999 / 2 ^ 50` (the `float` nearest to `-1e-8`): lines
41 and 43 return `u = 1`. -/
theorem approxUVFloatU_tiny_negative_witness :
    -(6 / 10 ^ 8) ≤ (-(11258999 / 2 ^ 50) : ℝ) ∧ (-(11258999 / 2 ^ 50) : ℝ) < 0 ∧
      approxUVFloatU (-(11258999 / 2 ^ 50)) = 1 ∧
      approxUVFloatU (toFloat (-(1 / 10 ^ 8))) = 1 :=
  ⟨by norm_num, by norm_num,
    (approxUVFloatU_tiny_negative (-(11258999 / 2 ^ 50)) (by norm_num) (by norm_num)).2.2.1,
    by rw [toFloat_neg_1e8]
       exact (approxUVFloatU_tiny_negative (-(11258999 / 2 ^ 50)) (by norm_num)
         (by norm_num)).2.2.1⟩

end Terrain

end Atmos
